import Mathlib

/-!
Verification development for a checkers (draughts) engine:
board representation, legal-move generation (forced capture, multi-jump
chains), a static evaluator, and depth-limited minimax search with
alpha-beta pruning.  Definitions are shallow embeddings of the
corresponding TypeScript classes (`Board`, `MoveValidator`, `Evaluator`,
`Minimax`); theorems at the end settle the specification claims.

Modelling conventions:
* JavaScript numbers used as coordinates become `Int` (all call sites use
  integral values); search depth becomes `Nat`.
* The board grid is a total function `Int → Int → Option Piece`; all
  reads and writes in the source go through the guarded accessors, so
  values outside `[0,8) × [0,8)` are never observed.
* `Board.movePiece` performs unguarded array accesses in the source:
  `grid[fromRow]` is `undefined` for an out-of-range row and reading or
  assigning a property of `undefined` throws a TypeError.  The model
  returns `MoveResult.thrown` there, carrying the board as mutated up to
  the throwing statement (the source mutates in place).
* Scores are `Int`; the `±Infinity` sentinels of the search become the
  `⊥` / `⊤` of `WithBot (WithTop ℤ)`.
-/

inductive Player where
  | red
  | black
deriving DecidableEq, Repr

inductive PieceType where
  | Regular
  | King
deriving DecidableEq, Repr

structure Piece where
  player : Player
  type : PieceType
deriving DecidableEq, Repr

/-- `player === Player.Red ? Player.Black : Player.Red`, the opponent
computation inlined at several places in the source. -/
def Player.opponent : Player → Player
  | .red => .black
  | .black => .red

/-- The 8×8 board.  The source stores a `(Piece | null)[][]`; the model
keeps a total grid function, observed only through the guarded
accessors below. -/
structure Board where
  grid : Int → Int → Option Piece

namespace Board

/-- `Board.getPieceAt`: returns `null` (here `none`) for out-of-range
coordinates, otherwise reads the grid. -/
def getPieceAt (b : Board) (row col : Int) : Option Piece :=
  if row < 0 ∨ 8 ≤ row ∨ col < 0 ∨ 8 ≤ col then none
  else b.grid row col

/-- `Board.setPiece`: writes only when `0 ≤ row < 8 ∧ 0 ≤ col < 8`;
out-of-range writes are silently dropped. -/
def setPiece (b : Board) (row col : Int) (piece : Option Piece) : Board :=
  if 0 ≤ row ∧ row < 8 ∧ 0 ≤ col ∧ col < 8 then
    ⟨fun r c => if r = row ∧ c = col then piece else b.grid r c⟩
  else b

/-- `Board.removePiece`: guarded clear of a cell (the source repeats the
same range guard as `setPiece` and assigns `null`). -/
def removePiece (b : Board) (row col : Int) : Board :=
  b.setPiece row col none

/-- An entry of `Board.getPieces`: the source pushes `{piece, row, col}`
records during a row-major scan. -/
structure PieceEntry where
  piece : Piece
  row : Int
  col : Int
deriving DecidableEq, Repr

/-- `Board.getPieces`: row-major scan collecting the given player's
pieces. -/
def getPieces (b : Board) (player : Player) : List PieceEntry :=
  (List.range 8).flatMap fun row =>
    (List.range 8).filterMap fun col =>
      match b.grid (row : Int) (col : Int) with
      | some piece =>
          if piece.player = player then
            some ⟨piece, (row : Int), (col : Int)⟩
          else none
      | none => none

/-- Result of `Board.movePiece`: the source mutates in place and can
throw; `thrown` carries the board state at the moment of the throw. -/
inductive MoveResult where
  | ok (board : Board)
  | thrown (board : Board) (msg : String)

/-- `Board.movePiece`: unguarded in the source.  `grid[fromRow]` with an
out-of-range row is `undefined`, so the subsequent element access (or
element assignment for `toRow`) throws a TypeError.  An out-of-range
`fromCol` merely reads `undefined`, which the `!piece` early return
treats as an empty source.  An out-of-range `toCol` assignment creates a
non-index property, invisible to every guarded read, hence modelled as a
dropped write (`setPiece`'s guard).  Promotion happens in the same call:
a Regular piece landing on row 7 (red) or row 0 (black) becomes a
King. -/
def movePiece (b : Board) (fromRow fromCol toRow toCol : Int) : MoveResult :=
  if fromRow < 0 ∨ 8 ≤ fromRow then .thrown b "TypeError"
  else
    match b.getPieceAt fromRow fromCol with
    | none => .ok b
    | some piece =>
        let b1 := b.setPiece fromRow fromCol none
        if toRow < 0 ∨ 8 ≤ toRow then .thrown b1 "TypeError"
        else
          let promoted : Piece :=
            if piece.type = PieceType.Regular ∧
                ((piece.player = Player.red ∧ toRow = 7) ∨
                 (piece.player = Player.black ∧ toRow = 0)) then
              { piece with type := PieceType.King }
            else piece
          .ok (b1.setPiece toRow toCol (some promoted))

/-- `Board.createInitialBoard`: red Regular pieces on the dark squares of
rows 0–2, black Regular pieces on the dark squares of rows 5–7. -/
def createInitialBoard : Int → Int → Option Piece := fun row col =>
  if 0 ≤ row ∧ row < 3 ∧ 0 ≤ col ∧ col < 8 ∧ (row + col) % 2 = 1 then
    some ⟨Player.red, PieceType.Regular⟩
  else if 5 ≤ row ∧ row < 8 ∧ 0 ≤ col ∧ col < 8 ∧ (row + col) % 2 = 1 then
    some ⟨Player.black, PieceType.Regular⟩
  else none

/-- The board produced by the `Board` constructor. -/
def initial : Board := ⟨createInitialBoard⟩

/-- `Board.empty()`: the all-empty grid used to build test positions. -/
def empty : Board := ⟨fun _ _ => none⟩

end Board

inductive MoveType where
  | Regular
  | Capture
deriving DecidableEq, Repr

/-- A candidate move: destination, kind, and for captures the jumped
square's coordinates. -/
structure Move where
  toRow : Int
  toCol : Int
  type : MoveType
  capturedRow : Option Int := none
  capturedCol : Option Int := none
deriving DecidableEq, Repr

/-- A move tagged with its source square, as produced by
`MoveValidator.getAllValidMoves`. -/
structure PieceMove where
  fromRow : Int
  fromCol : Int
  move : Move
deriving DecidableEq, Repr

namespace MoveValidator

/-- The four diagonal directions (order as in the source). -/
def DIRECTIONS : List (Int × Int) :=
  [(-1, -1), (-1, 1), (1, -1), (1, 1)]

/-- `MoveValidator.getDirections`: Kings move in all four diagonals;
red Regular pieces move toward increasing rows, black Regular pieces
toward decreasing rows. -/
def getDirections (player : Player) (type : PieceType) : List (Int × Int) :=
  if type = PieceType.King then DIRECTIONS
  else if player = Player.red then [(1, -1), (1, 1)]
  else [(-1, -1), (-1, 1)]

/-- `MoveValidator.isValidPosition`. -/
def isValidPosition (row col : Int) : Bool :=
  0 ≤ row ∧ row < 8 ∧ 0 ≤ col ∧ col < 8

/-- `MoveValidator.getRegularMoves`: one-step diagonal moves onto empty
in-range squares. -/
def getRegularMoves (board : Board) (row col : Int) (player : Player)
    (type : PieceType) : List Move :=
  (getDirections player type).filterMap fun d =>
    let newRow := row + d.1
    let newCol := col + d.2
    if isValidPosition newRow newCol ∧ board.getPieceAt newRow newCol = none then
      some { toRow := newRow, toCol := newCol, type := MoveType.Regular }
    else none

/-- `MoveValidator.getCaptureMoves`: a jump over an adjacent opponent
piece onto the empty in-range square two steps away; the jumped square
is recorded on the move. -/
def getCaptureMoves (board : Board) (row col : Int) (player : Player)
    (type : PieceType) : List Move :=
  (getDirections player type).filterMap fun d =>
    let jumpedRow := row + d.1
    let jumpedCol := col + d.2
    let landRow := row + 2 * d.1
    let landCol := col + 2 * d.2
    if isValidPosition landRow landCol then
      match board.getPieceAt jumpedRow jumpedCol with
      | some jumpedPiece =>
          if jumpedPiece.player ≠ player ∧ board.getPieceAt landRow landCol = none then
            some { toRow := landRow, toCol := landCol, type := MoveType.Capture,
                   capturedRow := some jumpedRow, capturedCol := some jumpedCol }
          else none
      | none => none
    else none

/-- `MoveValidator.getValidMoves`: captures of the piece at the square if
it has any, otherwise its quiet step moves; empty square yields `[]`. -/
def getValidMoves (board : Board) (row col : Int) : List Move :=
  match board.getPieceAt row col with
  | none => []
  | some piece =>
      let captures := getCaptureMoves board row col piece.player piece.type
      if captures.length > 0 then captures
      else getRegularMoves board row col piece.player piece.type

/-- `MoveValidator.getAllValidMoves`: first pass over the player's pieces
pushes every capture move and records whether any exists; if so only
those are returned (global forced capture), otherwise a second pass
collects every quiet move. -/
def getAllValidMoves (board : Board) (player : Player) : List PieceMove :=
  let pieces := board.getPieces player
  let firstPass :=
    pieces.foldl
      (fun acc e =>
        let captures := getCaptureMoves board e.row e.col e.piece.player e.piece.type
        if captures.length > 0 then
          (acc.1 ++ captures.map fun m => PieceMove.mk e.row e.col m, true)
        else acc)
      (([] : List PieceMove), false)
  if firstPass.2 then firstPass.1
  else
    pieces.foldl
      (fun acc e =>
        acc ++ (getRegularMoves board e.row e.col e.piece.player e.piece.type).map
          fun m => PieceMove.mk e.row e.col m)
      firstPass.1

end MoveValidator

namespace Move

/-- `Move.execute`: removes the recorded captured piece (when present)
and then relocates the moving piece via `Board.movePiece`.  Total
rendering of the in-place mutation: on `Board.movePiece`'s throwing
paths (unreachable for validator-produced moves) the board keeps the
mutations performed before the throw. -/
def execute (board : Board) (fromRow fromCol : Int) (move : Move) : Board :=
  let b1 :=
    if move.type = MoveType.Capture ∧ move.capturedRow ≠ none ∧ move.capturedCol ≠ none then
      board.removePiece (move.capturedRow.getD 0) (move.capturedCol.getD 0)
    else board
  match b1.movePiece fromRow fromCol move.toRow move.toCol with
  | .ok b2 => b2
  | .thrown b2 _ => b2

end Move

/-- The board a `MoveResult` leaves behind (final board on `ok`, the
board as mutated so far on `thrown`). -/
def Board.MoveResult.board : Board.MoveResult → Board
  | .ok b => b
  | .thrown b _ => b

/-- Number of occupied squares, the termination measure for capture-chain
enumeration (each capture removes the jumped piece). -/
def Board.pieceCount (b : Board) : Nat :=
  ∑ p : Fin 8 × Fin 8, if (b.grid p.1.val p.2.val).isSome then 1 else 0

lemma Board.getPieceAt_eq_some {b : Board} {row col : Int} {p : Piece}
    (h : b.getPieceAt row col = some p) :
    (0 ≤ row ∧ row < 8 ∧ 0 ≤ col ∧ col < 8) ∧ b.grid row col = some p := by
  unfold Board.getPieceAt at h
  split at h
  · exact absurd h (by simp)
  · next hng => exact ⟨by push_neg at hng; omega, h⟩

lemma Board.pieceCount_setPiece (b : Board) (row col : Int)
    (h : 0 ≤ row ∧ row < 8 ∧ 0 ≤ col ∧ col < 8) (v : Option Piece) :
    (b.setPiece row col v).pieceCount + (if (b.grid row col).isSome then 1 else 0)
      = b.pieceCount + (if v.isSome then 1 else 0) := by
  obtain ⟨h1, h2, h3, h4⟩ := h
  have hrn : row.toNat < 8 := by omega
  have hcn : col.toNat < 8 := by omega
  set pt : Fin 8 × Fin 8 := (⟨row.toNat, hrn⟩, ⟨col.toNat, hcn⟩) with hpt
  have hptr : (pt.1.val : Int) = row := by simp [hpt]; omega
  have hptc : (pt.2.val : Int) = col := by simp [hpt]; omega
  unfold Board.pieceCount Board.setPiece
  rw [if_pos ⟨h1, h2, h3, h4⟩]
  rw [← Finset.sum_erase_add _ _ (Finset.mem_univ pt),
      ← Finset.sum_erase_add _ _ (Finset.mem_univ pt)]
  have hcongr :
      ∑ q ∈ Finset.univ.erase pt,
          (if ((fun r c => if r = row ∧ c = col then v else b.grid r c)
              q.1.val q.2.val).isSome then 1 else 0)
        = ∑ q ∈ Finset.univ.erase pt,
            (if (b.grid q.1.val q.2.val).isSome then 1 else 0) := by
    refine Finset.sum_congr rfl fun q hq => ?_
    have hqne : q ≠ pt := (Finset.mem_erase.mp hq).1
    have : ¬((q.1.val : Int) = row ∧ (q.2.val : Int) = col) := by
      rintro ⟨hr, hc⟩
      apply hqne
      have : q.1 = pt.1 := Fin.ext (by omega)
      have h2' : q.2 = pt.2 := Fin.ext (by omega)
      exact Prod.ext this h2'
    simp only [if_neg this]
  simp only [hcongr]
  have hrr : ((row.toNat : Nat) : Int) = row := by omega
  have hcc : ((col.toNat : Nat) : Int) = col := by omega
  simp [hrr, hcc]
  omega

lemma Board.pieceCount_setPiece_le (b : Board) (row col : Int) (v : Option Piece) :
    (b.setPiece row col v).pieceCount ≤ b.pieceCount + 1 := by
  by_cases h : 0 ≤ row ∧ row < 8 ∧ 0 ≤ col ∧ col < 8
  · have := b.pieceCount_setPiece row col h v
    split at this <;> split at this <;> omega
  · unfold Board.setPiece
    rw [if_neg h]
    omega

lemma Board.pieceCount_remove_occupied {b : Board} {row col : Int} {p : Piece}
    (h : b.getPieceAt row col = some p) :
    (b.removePiece row col).pieceCount + 1 = b.pieceCount := by
  obtain ⟨hrange, hgrid⟩ := Board.getPieceAt_eq_some h
  have := b.pieceCount_setPiece row col hrange none
  rw [hgrid] at this
  simpa [Board.removePiece] using this

lemma Board.movePiece_board_pieceCount_le (b : Board) (fr fc tr tc : Int) :
    (b.movePiece fr fc tr tc).board.pieceCount ≤ b.pieceCount := by
  unfold Board.movePiece
  split
  · simp [Board.MoveResult.board]
  · split
    · simp [Board.MoveResult.board]
    · next piece hp =>
      have hsrc : (b.setPiece fr fc none).pieceCount + 1 = b.pieceCount := by
        simpa [Board.removePiece] using Board.pieceCount_remove_occupied hp
      split
      · simp only [Board.MoveResult.board]
        omega
      · simp only [Board.MoveResult.board]
        calc ((b.setPiece fr fc none).setPiece tr tc _).pieceCount
            ≤ (b.setPiece fr fc none).pieceCount + 1 :=
              Board.pieceCount_setPiece_le _ _ _ _
          _ = b.pieceCount := hsrc

namespace MoveValidator

/-- Characterization of the moves produced by `getCaptureMoves`: each
comes from a direction `d`, jumps the adjacent square `(row+d.1, col+d.2)`
holding an opponent piece, and lands on the empty in-range square two
steps away, recording the jumped square. -/
lemma mem_getCaptureMoves {board : Board} {row col : Int} {player : Player}
    {type : PieceType} {m : Move}
    (h : m ∈ getCaptureMoves board row col player type) :
    ∃ d ∈ getDirections player type,
      m = { toRow := row + 2 * d.1, toCol := col + 2 * d.2,
            type := MoveType.Capture,
            capturedRow := some (row + d.1), capturedCol := some (col + d.2) } ∧
      isValidPosition (row + 2 * d.1) (col + 2 * d.2) = true ∧
      (∃ q, board.getPieceAt (row + d.1) (col + d.2) = some q ∧ q.player ≠ player) ∧
      board.getPieceAt (row + 2 * d.1) (col + 2 * d.2) = none := by
  unfold getCaptureMoves at h
  rw [List.mem_filterMap] at h
  obtain ⟨d, hd, heq⟩ := h
  refine ⟨d, hd, ?_⟩
  simp only at heq
  split at heq
  · next hvalid =>
    split at heq
    · next piece hjp =>
      split at heq
      · next hif =>
        injection heq with h'
        exact ⟨h'.symm, hvalid, ⟨piece, hjp, hif.1⟩, hif.2⟩
      · exact absurd heq (by simp)
    · exact absurd heq (by simp)
  · exact absurd heq (by simp)

/-- Executing a capture move strictly decreases the number of pieces on
the board: the jumped piece is removed and relocation never adds one. -/
lemma execute_capture_pieceCount_lt {board : Board} {row col : Int}
    {player : Player} {type : PieceType} {m : Move}
    (h : m ∈ getCaptureMoves board row col player type) :
    (Move.execute board row col m).pieceCount < board.pieceCount := by
  obtain ⟨d, _, rfl, _, ⟨q, hjp, _⟩, _⟩ := mem_getCaptureMoves h
  unfold Move.execute
  simp only [Option.getD_some, ne_eq, reduceCtorEq, not_false_eq_true, and_self, if_pos,
    Option.some.injEq, and_true, true_and]
  have hb1 : (board.removePiece (row + d.1) (col + d.2)).pieceCount + 1
      = board.pieceCount := Board.pieceCount_remove_occupied hjp
  have hle := Board.movePiece_board_pieceCount_le
    (board.removePiece (row + d.1) (col + d.2)) row col (row + 2 * d.1) (col + 2 * d.2)
  split
  · next b2 heq =>
    have : (Board.MoveResult.ok b2).board = b2 := rfl
    rw [heq] at hle
    simp only [Board.MoveResult.board] at hle
    omega
  · next b2 msg heq =>
    rw [heq] at hle
    simp only [Board.MoveResult.board] at hle
    omega

end MoveValidator

namespace MoveValidator

/-- `MoveValidator.findCaptureChains`: depth-first enumeration of all
maximal capture chains from `(row, col)`.  Each branch replays a capture
on a copy of the board, re-reads the moved piece's possibly promoted
rank, and recurses from the landing square; a branch with no further
capture emits the accumulated chain (when nonempty).  Terminates because
each capture removes a piece. -/
def findCaptureChains (board : Board) (row col : Int) (player : Player)
    (type : PieceType) (currentChain : List Move) : List (List Move) :=
  let captures := getCaptureMoves board row col player type
  if _hcap : captures.length = 0 then
    if currentChain.length > 0 then [currentChain] else []
  else
    captures.attach.flatMap fun c =>
      let newBoard := Move.execute board row col c.1
      let newType :=
        ((newBoard.getPieceAt c.1.toRow c.1.toCol).map Piece.type).getD type
      findCaptureChains newBoard c.1.toRow c.1.toCol player newType
        (currentChain ++ [c.1])
termination_by board.pieceCount
decreasing_by
exact execute_capture_pieceCount_lt c.2

/-- `MoveValidator.getCaptureChains`: empty square yields `[]`, otherwise
enumerate from the piece found there (the source's `board.clone()` is the
identity in the pure model). -/
def getCaptureChains (board : Board) (row col : Int) : List (List Move) :=
  match board.getPieceAt row col with
  | none => []
  | some piece => findCaptureChains board row col piece.player piece.type []

end MoveValidator

namespace Evaluator

def WIN_SCORE : Int := 10000
def PIECE_VALUE : Int := 100
def KING_VALUE : Int := 180
def CENTER_BONUS : Int := 5
def ADVANCE_BONUS : Int := 2

/-- `Math.abs` on the integers appearing in the evaluator. -/
def jsAbs (x : Int) : Int := if x < 0 then -x else x

/-- `Evaluator.evaluatePiece`.  The source computes
`centerDistance = |3.5 - col| + |3.5 - row|` over JS floats and adds
`(7 - centerDistance) * CENTER_BONUS`; for integer coordinates both
summands are odd multiples of 0.5, so the sum is an integer.  The model
doubles the distance (`|7 - 2*col| + |7 - 2*row|`, always even) and
halves it back, which is exact, keeping everything in `Int`. -/
def evaluatePiece (piece : Piece) (row col : Int) (player : Player) : Int :=
  let base := if piece.type = PieceType.King then KING_VALUE else PIECE_VALUE
  let centerDistanceDoubled := jsAbs (7 - 2 * col) + jsAbs (7 - 2 * row)
  let withCenter := base + (7 - centerDistanceDoubled / 2) * CENTER_BONUS
  if piece.type = PieceType.Regular then
    if player = Player.red then withCenter + row * ADVANCE_BONUS
    else withCenter + (7 - row) * ADVANCE_BONUS
  else withCenter

/-- `Evaluator.evaluate`: win/loss checks first (opponent with zero
pieces, then the player with zero pieces), otherwise the sum of the
player's piece values minus the sum of the opponent's. -/
def evaluate (board : Board) (player : Player) : Int :=
  let opponent := player.opponent
  let playerPieces := board.getPieces player
  let opponentPieces := board.getPieces opponent
  if opponentPieces.length = 0 then WIN_SCORE
  else if playerPieces.length = 0 then -WIN_SCORE
  else
    let score := playerPieces.foldl
      (fun acc e => acc + evaluatePiece e.piece e.row e.col player) 0
    opponentPieces.foldl
      (fun acc e => acc - evaluatePiece e.piece e.row e.col opponent) score

end Evaluator

/-- Scores as manipulated by the search: integers extended with the
`-Infinity` / `+Infinity` sentinels (`⊥` and `⊤`). -/
abbrev Score : Type := WithBot (WithTop ℤ)

namespace Score

def ofInt (n : Int) : Score := ((n : WithTop ℤ) : WithBot (WithTop ℤ))

lemma ofInt_le_ofInt {a b : Int} : ofInt a ≤ ofInt b ↔ a ≤ b := by
  unfold ofInt
  rw [WithBot.coe_le_coe, WithTop.coe_le_coe]

lemma ofInt_lt_ofInt {a b : Int} : ofInt a < ofInt b ↔ a < b := by
  unfold ofInt
  rw [WithBot.coe_lt_coe, WithTop.coe_lt_coe]

lemma ofInt_max (a b : Int) : ofInt (max a b) = max (ofInt a) (ofInt b) := by
  rcases le_total a b with h | h
  · rw [max_eq_right h, max_eq_right (ofInt_le_ofInt.mpr h)]
  · rw [max_eq_left h, max_eq_left (ofInt_le_ofInt.mpr h)]

lemma ofInt_min (a b : Int) : ofInt (min a b) = min (ofInt a) (ofInt b) := by
  rcases le_total a b with h | h
  · rw [min_eq_left h, min_eq_left (ofInt_le_ofInt.mpr h)]
  · rw [min_eq_right h, min_eq_right (ofInt_le_ofInt.mpr h)]

lemma ofInt_ne_top (n : Int) : ofInt n ≠ (⊤ : Score) := by
  unfold ofInt
  intro h
  rw [show (⊤ : Score) = ((⊤ : WithTop ℤ) : WithBot (WithTop ℤ)) from rfl] at h
  exact WithTop.coe_ne_top (WithBot.coe_injective h)

lemma ofInt_ne_bot (n : Int) : ofInt n ≠ (⊥ : Score) :=
  WithBot.coe_ne_bot

lemma bot_lt_ofInt (n : Int) : (⊥ : Score) < ofInt n :=
  WithBot.bot_lt_coe _

lemma ofInt_lt_top (n : Int) : ofInt n < (⊤ : Score) :=
  lt_top_iff_ne_top.mpr (ofInt_ne_top n)

end Score

/-- `SearchResult`: source square, move, and the score found for it. -/
structure SearchResult where
  fromRow : Int
  fromCol : Int
  move : Move
  score : Score
deriving DecidableEq

namespace Minimax

/-- The maximizing loop of `Minimax.minimax` (the `for` over candidate
moves with running `maxEval`/`alpha` and the `beta <= alpha` break);
`f` is the recursive evaluation of a child position one ply deeper. -/
def maxLoop (f : Board → Score → Score → Score) (board : Board) :
    List PieceMove → Score → Score → Score → Score
  | [], _, _, maxEval => maxEval
  | pm :: rest, alpha, beta, maxEval =>
      let newBoard := Move.execute board pm.fromRow pm.fromCol pm.move
      let evalScore := f newBoard alpha beta
      let maxEval' := max maxEval evalScore
      let alpha' := max alpha evalScore
      if beta ≤ alpha' then maxEval'
      else maxLoop f board rest alpha' beta maxEval'

/-- The minimizing loop of `Minimax.minimax` (running `minEval`/`beta`
and the `beta <= alpha` break). -/
def minLoop (f : Board → Score → Score → Score) (board : Board) :
    List PieceMove → Score → Score → Score → Score
  | [], _, _, minEval => minEval
  | pm :: rest, alpha, beta, minEval =>
      let newBoard := Move.execute board pm.fromRow pm.fromCol pm.move
      let evalScore := f newBoard alpha beta
      let minEval' := min minEval evalScore
      let beta' := min beta evalScore
      if beta' ≤ alpha then minEval'
      else minLoop f board rest alpha beta' minEval'

/-- `Minimax.minimax`: depth 0 evaluates from the fixed `player`'s
perspective; a side to move with no legal moves loses immediately
(`∓WIN_SCORE`); otherwise the max/min loop over
`getAllValidMoves(board, currentPlayer)` with the alpha/beta window,
starting from `-Infinity` (resp. `+Infinity`). -/
def minimax (board : Board) (depth : Nat) (alpha beta : Score)
    (isMaximizing : Bool) (player : Player) : Score :=
  match depth with
  | 0 => Score.ofInt (Evaluator.evaluate board player)
  | d + 1 =>
      let currentPlayer := if isMaximizing then player else player.opponent
      let moves := MoveValidator.getAllValidMoves board currentPlayer
      if moves.length = 0 then
        Score.ofInt (if isMaximizing then -Evaluator.WIN_SCORE else Evaluator.WIN_SCORE)
      else if isMaximizing then
        maxLoop (fun b a bb => minimax b d a bb false player) board moves alpha beta ⊥
      else
        minLoop (fun b a bb => minimax b d a bb true player) board moves alpha beta ⊤

/-- The candidate loop of `Minimax.findBestMove`: tracks the first
strictly-best result and widens `alpha`; `beta` stays `+Infinity` and
there is no break. -/
def findLoop (f : Board → Score → Score) (board : Board) :
    List PieceMove → Option SearchResult → Score → Option SearchResult
  | [], best, _ => best
  | pm :: rest, best, alpha =>
      let newBoard := Move.execute board pm.fromRow pm.fromCol pm.move
      let score := f newBoard alpha
      let best' :=
        match best with
        | none => some ⟨pm.fromRow, pm.fromCol, pm.move, score⟩
        | some b =>
            if b.score < score then some ⟨pm.fromRow, pm.fromCol, pm.move, score⟩
            else some b
      findLoop f board rest best' (max alpha score)

/-- `Minimax.findBestMove`: `null` when the player has no legal move,
otherwise the loop over candidates, scoring each child with the
minimizing recursion one ply deeper.  CAVEAT: this total model is a
model of the source only for `depth ≥ 1`, where `depth - 1` agrees with
the source's `depth - 1` (theorem `findBestMoveJS_eq_findBestMove`
below proves the agreement against the fuel-indexed model of the raw
recursion).  At `depth = 0` the source instead calls `minimax` with
depth `-1`, which can never reach the `depth === 0` leaf; that
behaviour is modelled faithfully by `findBestMoveJS` below and is NOT
this function's `depth - 1 = 0` truncation. -/
def findBestMove (board : Board) (player : Player) (depth : Nat) :
    Option SearchResult :=
  let moves := MoveValidator.getAllValidMoves board player
  if moves.length = 0 then none
  else findLoop (fun b a => minimax b (depth - 1) a ⊤ false player) board moves none ⊥

end Minimax

/-- REFERENCE (from the spec, for the refinement claim): plain unpruned
minimax over the same game tree — same move generation, depth-0 leaves
evaluated from the fixed `player`'s perspective, a stuck side scored
`-WIN_SCORE` on the maximizing turn and `+WIN_SCORE` otherwise, and the
exact max/min over all children with no window. -/
def specMinimax (board : Board) (depth : Nat) (isMaximizing : Bool)
    (player : Player) : Int :=
  match depth with
  | 0 => Evaluator.evaluate board player
  | d + 1 =>
      let currentPlayer := if isMaximizing then player else player.opponent
      match MoveValidator.getAllValidMoves board currentPlayer with
      | [] => if isMaximizing then -Evaluator.WIN_SCORE else Evaluator.WIN_SCORE
      | pm :: rest =>
          let f := fun (q : PieceMove) =>
            specMinimax (Move.execute board q.fromRow q.fromCol q.move) d
              (!isMaximizing) player
          if isMaximizing then rest.foldl (fun acc q => max acc (f q)) (f pm)
          else rest.foldl (fun acc q => min acc (f q)) (f pm)

/-- Running maximum over a list, as accumulated by the search loops. -/
def foldMax (g : PieceMove → Score) (l : List PieceMove) (a : Score) : Score :=
  l.foldl (fun acc pm => max acc (g pm)) a

/-- Running minimum over a list, as accumulated by the search loops. -/
def foldMin (g : PieceMove → Score) (l : List PieceMove) (a : Score) : Score :=
  l.foldl (fun acc pm => min acc (g pm)) a

lemma foldMax_cons (g : PieceMove → Score) (pm : PieceMove) (rest : List PieceMove)
    (a : Score) : foldMax g (pm :: rest) a = foldMax g rest (max a (g pm)) := rfl

lemma foldMin_cons (g : PieceMove → Score) (pm : PieceMove) (rest : List PieceMove)
    (a : Score) : foldMin g (pm :: rest) a = foldMin g rest (min a (g pm)) := rfl

lemma le_foldMax_self (g : PieceMove → Score) (l : List PieceMove) (a : Score) :
    a ≤ foldMax g l a := by
  induction l generalizing a with
  | nil => exact le_refl a
  | cons pm rest ih =>
      rw [foldMax_cons]
      exact (le_max_left a (g pm)).trans (ih (max a (g pm)))

lemma foldMin_le_self (g : PieceMove → Score) (l : List PieceMove) (a : Score) :
    foldMin g l a ≤ a := by
  induction l generalizing a with
  | nil => exact le_refl a
  | cons pm rest ih =>
      rw [foldMin_cons]
      exact (ih (min a (g pm))).trans (min_le_left a (g pm))

lemma foldMax_mono (g : PieceMove → Score) (l : List PieceMove) {a b : Score}
    (h : a ≤ b) : foldMax g l a ≤ foldMax g l b := by
  induction l generalizing a b with
  | nil => exact h
  | cons pm rest ih =>
      rw [foldMax_cons, foldMax_cons]
      exact ih (max_le_max h (le_refl (g pm)))

lemma foldMin_mono (g : PieceMove → Score) (l : List PieceMove) {a b : Score}
    (h : a ≤ b) : foldMin g l a ≤ foldMin g l b := by
  induction l generalizing a b with
  | nil => exact h
  | cons pm rest ih =>
      rw [foldMin_cons, foldMin_cons]
      exact ih (min_le_min h (le_refl (g pm)))

lemma foldMax_eq_max_bot (g : PieceMove → Score) (l : List PieceMove) (a : Score) :
    foldMax g l a = max a (foldMax g l ⊥) := by
  induction l generalizing a with
  | nil => simp [foldMax]
  | cons pm rest ih =>
      rw [foldMax_cons, foldMax_cons, ih (max a (g pm)),
        ih (max (⊥ : Score) (g pm)), max_eq_right (bot_le : (⊥ : Score) ≤ g pm),
        max_assoc]

lemma foldMin_eq_min_top (g : PieceMove → Score) (l : List PieceMove) (a : Score) :
    foldMin g l a = min a (foldMin g l ⊤) := by
  induction l generalizing a with
  | nil => simp [foldMin]
  | cons pm rest ih =>
      rw [foldMin_cons, foldMin_cons, ih (min a (g pm)),
        ih (min (⊤ : Score) (g pm)), min_eq_right (le_top : g pm ≤ (⊤ : Score)),
        min_assoc]

/-- Knuth–Moore fail-soft contract for a search value `r` against the
exact value `v` within window `(alpha, beta)`: failing low bounds the
exact value from above, failing high bounds it from below, and a value
inside the window is exact. -/
def KMtriple (r : Score) (v : Int) (alpha beta : Score) : Prop :=
  (r ≤ alpha → Score.ofInt v ≤ r) ∧
  (beta ≤ r → r ≤ Score.ofInt v) ∧
  (alpha < r → r < beta → r = Score.ofInt v)

/-- The exact child value seen from a candidate move. -/
def childScore (g : Board → Int) (board : Board) (pm : PieceMove) : Score :=
  Score.ofInt (g (Move.execute board pm.fromRow pm.fromCol pm.move))


lemma maxLoop_correct (f : Board → Score → Score → Score) (g : Board → Int)
    (board : Board)
    (hf : ∀ b a bb, a < bb → KMtriple (f b a bb) (g b) a bb)
    (moves : List PieceMove) :
    ∀ (alpha beta maxEval : Score), alpha < beta →
      maxEval ≤ Minimax.maxLoop f board moves alpha beta maxEval ∧
      (Minimax.maxLoop f board moves alpha beta maxEval ≤ alpha →
        foldMax (childScore g board) moves maxEval ≤
          Minimax.maxLoop f board moves alpha beta maxEval) ∧
      (beta ≤ Minimax.maxLoop f board moves alpha beta maxEval →
        Minimax.maxLoop f board moves alpha beta maxEval ≤
          foldMax (childScore g board) moves maxEval) ∧
      (alpha < Minimax.maxLoop f board moves alpha beta maxEval →
        Minimax.maxLoop f board moves alpha beta maxEval < beta →
        Minimax.maxLoop f board moves alpha beta maxEval =
          foldMax (childScore g board) moves maxEval) := by
  induction moves with
  | nil =>
      intro alpha beta maxEval _
      exact ⟨le_refl _, fun _ => le_refl _, fun _ => le_refl _, fun _ _ => rfl⟩
  | cons pm rest ih =>
      intro alpha beta maxEval hab
      have hstep : Minimax.maxLoop f board (pm :: rest) alpha beta maxEval =
          if beta ≤ max alpha (f (Move.execute board pm.fromRow pm.fromCol pm.move) alpha beta)
          then max maxEval (f (Move.execute board pm.fromRow pm.fromCol pm.move) alpha beta)
          else Minimax.maxLoop f board rest
            (max alpha (f (Move.execute board pm.fromRow pm.fromCol pm.move) alpha beta)) beta
            (max maxEval (f (Move.execute board pm.fromRow pm.fromCol pm.move) alpha beta)) := rfl
      obtain ⟨h1, h2, h3⟩ :=
        hf (Move.execute board pm.fromRow pm.fromCol pm.move) alpha beta hab
      rw [hstep, foldMax_cons]
      have hgs : childScore g board pm =
          Score.ofInt (g (Move.execute board pm.fromRow pm.fromCol pm.move)) := rfl
      set s := f (Move.execute board pm.fromRow pm.fromCol pm.move) alpha beta with hs
      set sv := childScore g board pm with hsv
      rw [← hgs] at h1 h2 h3
      by_cases hbr : beta ≤ max alpha s
      · rw [if_pos hbr]
        have hbs : beta ≤ s := by
          rcases le_total s alpha with h | h
          · rw [max_eq_left h] at hbr
            exact absurd hbr (not_le.mpr hab)
          · rwa [max_eq_right h] at hbr
        have hssv : s ≤ sv := h2 hbs
        have hbetar : beta ≤ max maxEval s := hbs.trans (le_max_right _ _)
        refine ⟨le_max_left _ _, ?_, ?_, ?_⟩
        · intro hra
          exact absurd (hbetar.trans hra) (not_le.mpr hab)
        · intro _
          exact (max_le_max (le_refl maxEval) hssv).trans
            (le_foldMax_self (childScore g board) rest (max maxEval sv))
        · intro _ hrb
          exact absurd (lt_of_le_of_lt hbetar hrb) (lt_irrefl beta)
      · rw [if_neg hbr]
        have hab' : max alpha s < beta := not_le.mp hbr
        rcases le_or_lt s alpha with hsa | has
        · -- child failed low: its exact value is below alpha as well
          have hv : sv ≤ s := h1 hsa
          rw [max_eq_left hsa]
          obtain ⟨hD, hA, hB, hC⟩ := ih alpha beta (max maxEval s) hab
          refine ⟨(le_max_left _ _).trans hD, ?_, ?_, ?_⟩
          · intro hra
            exact (foldMax_mono (childScore g board) rest
              (max_le_max (le_refl maxEval) hv)).trans (hA hra)
          · intro hbrle
            have hrW := hB hbrle
            rw [foldMax_eq_max_bot] at hrW
            rw [foldMax_eq_max_bot]
            set M := foldMax (childScore g board) rest ⊥ with hM
            rw [sup_right_comm maxEval s M] at hrW
            have hrs : ¬ Minimax.maxLoop f board rest alpha beta (max maxEval s) ≤ s :=
              not_le.mpr (lt_of_le_of_lt hsa (lt_of_lt_of_le hab hbrle))
            rcases le_max_iff.mp hrW with h | h
            · exact h.trans (by rw [sup_right_comm maxEval sv M]; exact le_max_left _ _)
            · exact absurd h hrs
          · intro har hrb
            have hrW := hC har hrb
            rw [foldMax_eq_max_bot] at hrW
            rw [foldMax_eq_max_bot]
            set M := foldMax (childScore g board) rest ⊥ with hM
            rw [sup_right_comm maxEval s M] at hrW
            have hsr : s < Minimax.maxLoop f board rest alpha beta (max maxEval s) :=
              lt_of_le_of_lt hsa har
            rcases max_choice (max maxEval M) s with h | h
            · have hsvr : sv < Minimax.maxLoop f board rest alpha beta (max maxEval s) :=
                lt_of_le_of_lt (hv.trans hsa) har
              rw [h] at hrW
              rw [sup_right_comm maxEval sv M, hrW]
              exact (max_eq_left (by rw [← hrW]; exact hsvr.le)).symm
            · rw [h] at hrW
              rw [hrW] at hsr
              exact absurd hsr (lt_irrefl s)
        · -- child value inside the window: it is exact
          have hsb : s < beta := lt_of_le_of_lt (le_max_right alpha s) hab'
          have hsev : s = sv := h3 has hsb
          rw [max_eq_right has.le, ← hsev]
          obtain ⟨hD, hA, hB, hC⟩ := ih s beta (max maxEval s) hsb
          refine ⟨(le_max_left _ _).trans hD, ?_, ?_, ?_⟩
          · intro hra
            exact absurd (((le_max_right maxEval s).trans hD).trans hra) (not_le.mpr has)
          · exact hB
          · intro _ hrb
            rcases lt_or_le s (Minimax.maxLoop f board rest s beta (max maxEval s)) with hlt | hle
            · exact hC hlt hrb
            · have hrs : Minimax.maxLoop f board rest s beta (max maxEval s) = s :=
                le_antisymm hle ((le_max_right maxEval s).trans hD)
              have hWle := hA (le_of_eq hrs)
              rw [hrs] at hWle
              have hleW : s ≤ foldMax (childScore g board) rest (max maxEval s) :=
                (le_max_right maxEval s).trans
                  (le_foldMax_self (childScore g board) rest (max maxEval s))
              rw [hrs]
              exact le_antisymm hleW hWle

lemma minLoop_correct (f : Board → Score → Score → Score) (g : Board → Int)
    (board : Board)
    (hf : ∀ b a bb, a < bb → KMtriple (f b a bb) (g b) a bb)
    (moves : List PieceMove) :
    ∀ (alpha beta minEval : Score), alpha < beta →
      Minimax.minLoop f board moves alpha beta minEval ≤ minEval ∧
      (Minimax.minLoop f board moves alpha beta minEval ≤ alpha →
        foldMin (childScore g board) moves minEval ≤
          Minimax.minLoop f board moves alpha beta minEval) ∧
      (beta ≤ Minimax.minLoop f board moves alpha beta minEval →
        Minimax.minLoop f board moves alpha beta minEval ≤
          foldMin (childScore g board) moves minEval) ∧
      (alpha < Minimax.minLoop f board moves alpha beta minEval →
        Minimax.minLoop f board moves alpha beta minEval < beta →
        Minimax.minLoop f board moves alpha beta minEval =
          foldMin (childScore g board) moves minEval) := by
  induction moves with
  | nil =>
      intro alpha beta minEval _
      exact ⟨le_refl _, fun _ => le_refl _, fun _ => le_refl _, fun _ _ => rfl⟩
  | cons pm rest ih =>
      intro alpha beta minEval hab
      have hstep : Minimax.minLoop f board (pm :: rest) alpha beta minEval =
          if min beta (f (Move.execute board pm.fromRow pm.fromCol pm.move) alpha beta) ≤ alpha
          then min minEval (f (Move.execute board pm.fromRow pm.fromCol pm.move) alpha beta)
          else Minimax.minLoop f board rest alpha
            (min beta (f (Move.execute board pm.fromRow pm.fromCol pm.move) alpha beta))
            (min minEval (f (Move.execute board pm.fromRow pm.fromCol pm.move) alpha beta)) := rfl
      obtain ⟨h1, h2, h3⟩ :=
        hf (Move.execute board pm.fromRow pm.fromCol pm.move) alpha beta hab
      rw [hstep, foldMin_cons]
      have hgs : childScore g board pm =
          Score.ofInt (g (Move.execute board pm.fromRow pm.fromCol pm.move)) := rfl
      set s := f (Move.execute board pm.fromRow pm.fromCol pm.move) alpha beta with hs
      set sv := childScore g board pm with hsv
      rw [← hgs] at h1 h2 h3
      by_cases hbr : min beta s ≤ alpha
      · rw [if_pos hbr]
        have hsa : s ≤ alpha := by
          rcases le_total beta s with h | h
          · rw [min_eq_left h] at hbr
            exact absurd hbr (not_le.mpr hab)
          · rwa [min_eq_right h] at hbr
        have hvs : sv ≤ s := h1 hsa
        have hral : min minEval s ≤ alpha := (min_le_right _ _).trans hsa
        refine ⟨min_le_left _ _, ?_, ?_, ?_⟩
        · intro _
          exact (foldMin_le_self (childScore g board) rest (min minEval sv)).trans
            (min_le_min (le_refl minEval) hvs)
        · intro hbrle
          exact absurd (hbrle.trans hral) (not_le.mpr hab)
        · intro har _
          exact absurd (lt_of_lt_of_le har hral) (lt_irrefl alpha)
      · rw [if_neg hbr]
        have hab' : alpha < min beta s := not_le.mp hbr
        rcases le_or_lt beta s with hbs | hsb
        · -- child failed high: its exact value is above beta as well
          have hv : s ≤ sv := h2 hbs
          rw [min_eq_left hbs]
          obtain ⟨hD, hA, hB, hC⟩ := ih alpha beta (min minEval s) hab
          refine ⟨hD.trans (min_le_left _ _), ?_, ?_, ?_⟩
          · intro hra
            have hrW := hA hra
            rw [foldMin_eq_min_top] at hrW
            rw [foldMin_eq_min_top]
            set M := foldMin (childScore g board) rest ⊤ with hM
            rw [inf_right_comm minEval s M] at hrW
            have hsr : ¬ s ≤ Minimax.minLoop f board rest alpha beta (min minEval s) :=
              not_le.mpr (lt_of_le_of_lt hra (lt_of_lt_of_le hab hbs))
            rcases min_le_iff.mp hrW with h | h
            · rw [inf_right_comm minEval sv M]
              exact (min_le_left (min minEval M) sv).trans h
            · exact absurd h hsr
          · intro hbrle
            exact (hB hbrle).trans (foldMin_mono (childScore g board) rest
              (min_le_min (le_refl minEval) hv))
          · intro har hrb
            have hrW := hC har hrb
            rw [foldMin_eq_min_top] at hrW
            rw [foldMin_eq_min_top]
            set M := foldMin (childScore g board) rest ⊤ with hM
            rw [inf_right_comm minEval s M] at hrW
            have hrs : Minimax.minLoop f board rest alpha beta (min minEval s) < s :=
              lt_of_lt_of_le hrb hbs
            rcases min_choice (min minEval M) s with h | h
            · have hrsv : Minimax.minLoop f board rest alpha beta (min minEval s) < sv :=
                lt_of_lt_of_le (lt_of_lt_of_le hrb hbs) hv
              rw [h] at hrW
              rw [inf_right_comm minEval sv M, hrW]
              exact (min_eq_left (by rw [← hrW]; exact hrsv.le)).symm
            · rw [h] at hrW
              rw [hrW] at hrs
              exact absurd hrs (lt_irrefl s)
        · -- child value inside the window: it is exact
          have has : alpha < s := lt_of_lt_of_le hab' (min_le_right beta s)
          have hsev : s = sv := h3 has hsb
          rw [min_eq_right hsb.le, ← hsev]
          obtain ⟨hD, hA, hB, hC⟩ := ih alpha s (min minEval s) has
          refine ⟨hD.trans (min_le_left _ _), ?_, ?_, ?_⟩
          · exact hA
          · intro hbrle
            exact absurd (hbrle.trans (hD.trans (min_le_right minEval s)))
              (not_le.mpr hsb)
          · intro har _
            rcases lt_or_le (Minimax.minLoop f board rest alpha s (min minEval s)) s with hlt | hle
            · exact hC har hlt
            · have hrs : Minimax.minLoop f board rest alpha s (min minEval s) = s :=
                le_antisymm (hD.trans (min_le_right minEval s)) hle
              have hWge := hB (le_of_eq hrs.symm)
              rw [hrs] at hWge
              have hleW : foldMin (childScore g board) rest (min minEval s) ≤ s :=
                (foldMin_le_self (childScore g board) rest (min minEval s)).trans
                  (min_le_right minEval s)
              rw [hrs]
              exact le_antisymm hWge hleW

lemma maxLoop_lt_top (f : Board → Score → Score → Score) (board : Board)
    (hf : ∀ b a bb, f b a bb < ⊤) (moves : List PieceMove) :
    ∀ (alpha beta maxEval : Score), maxEval < ⊤ →
      Minimax.maxLoop f board moves alpha beta maxEval < ⊤ := by
  induction moves with
  | nil => intro alpha beta maxEval h; exact h
  | cons pm rest ih =>
      intro alpha beta maxEval h
      show (if beta ≤ max alpha (f (Move.execute board pm.fromRow pm.fromCol pm.move) alpha beta)
        then max maxEval (f (Move.execute board pm.fromRow pm.fromCol pm.move) alpha beta)
        else Minimax.maxLoop f board rest
          (max alpha (f (Move.execute board pm.fromRow pm.fromCol pm.move) alpha beta)) beta
          (max maxEval (f (Move.execute board pm.fromRow pm.fromCol pm.move) alpha beta))) < ⊤
      split
      · exact max_lt h (hf _ _ _)
      · exact ih _ _ _ (max_lt h (hf _ _ _))

lemma minLoop_lt_top (f : Board → Score → Score → Score) (board : Board)
    (hf : ∀ b a bb, f b a bb < ⊤) (moves : List PieceMove) :
    ∀ (alpha beta minEval : Score), minEval < ⊤ ∨ moves ≠ [] →
      Minimax.minLoop f board moves alpha beta minEval < ⊤ := by
  induction moves with
  | nil =>
      intro alpha beta minEval h
      rcases h with h | h
      · exact h
      · exact absurd rfl h
  | cons pm rest ih =>
      intro alpha beta minEval _
      show (if min beta (f (Move.execute board pm.fromRow pm.fromCol pm.move) alpha beta) ≤ alpha
        then min minEval (f (Move.execute board pm.fromRow pm.fromCol pm.move) alpha beta)
        else Minimax.minLoop f board rest alpha
          (min beta (f (Move.execute board pm.fromRow pm.fromCol pm.move) alpha beta))
          (min minEval (f (Move.execute board pm.fromRow pm.fromCol pm.move) alpha beta))) < ⊤
      split
      · exact lt_of_le_of_lt (min_le_right _ _) (hf _ _ _)
      · exact ih _ _ _ (Or.inl (lt_of_le_of_lt (min_le_right _ _) (hf _ _ _)))

/-- The search value is never `+Infinity`: leaves and stuck positions
yield integers, and the loops only take maxima/minima that include at
least one recursively computed child. -/
lemma minimax_lt_top : ∀ (depth : Nat) (board : Board) (alpha beta : Score)
    (isMax : Bool) (player : Player),
    Minimax.minimax board depth alpha beta isMax player < ⊤ := by
  intro depth
  induction depth with
  | zero =>
      intro board alpha beta isMax player
      exact Score.ofInt_lt_top _
  | succ d ih =>
      intro board alpha beta isMax player
      cases isMax with
      | true =>
          simp only [Minimax.minimax, if_true]
          split
          · exact Score.ofInt_lt_top _
          · exact maxLoop_lt_top _ board (fun b a bb => ih b a bb false player) _
              alpha beta ⊥ bot_lt_top
      | false =>
          simp only [Minimax.minimax, Bool.false_eq_true, if_false]
          split
          · exact Score.ofInt_lt_top _
          · next hne =>
            refine minLoop_lt_top _ board (fun b a bb => ih b a bb true player) _
              alpha beta ⊤ (Or.inr ?_)
            intro hnil
            rw [hnil] at hne
            exact hne rfl

lemma foldMax_ofInt_eq (g : Board → Int) (board : Board) (l : List PieceMove) :
    ∀ (a : Int), foldMax (childScore g board) l (Score.ofInt a)
      = Score.ofInt (l.foldl (fun acc q =>
          max acc (g (Move.execute board q.fromRow q.fromCol q.move))) a) := by
  induction l with
  | nil => intro a; rfl
  | cons pm rest ih =>
      intro a
      rw [foldMax_cons, List.foldl_cons,
        show childScore g board pm
          = Score.ofInt (g (Move.execute board pm.fromRow pm.fromCol pm.move)) from rfl,
        ← Score.ofInt_max, ih]

lemma foldMin_ofInt_eq (g : Board → Int) (board : Board) (l : List PieceMove) :
    ∀ (a : Int), foldMin (childScore g board) l (Score.ofInt a)
      = Score.ofInt (l.foldl (fun acc q =>
          min acc (g (Move.execute board q.fromRow q.fromCol q.move))) a) := by
  induction l with
  | nil => intro a; rfl
  | cons pm rest ih =>
      intro a
      rw [foldMin_cons, List.foldl_cons,
        show childScore g board pm
          = Score.ofInt (g (Move.execute board pm.fromRow pm.fromCol pm.move)) from rfl,
        ← Score.ofInt_min, ih]

/-- Knuth–Moore correctness of the pruned search against the unpruned
reference: within a nonempty window the pruned value satisfies the
fail-soft contract with respect to `specMinimax` at every node. -/
theorem minimax_km : ∀ (depth : Nat) (board : Board) (alpha beta : Score)
    (isMax : Bool) (player : Player), alpha < beta →
    KMtriple (Minimax.minimax board depth alpha beta isMax player)
      (specMinimax board depth isMax player) alpha beta := by
  intro depth
  induction depth with
  | zero =>
      intro board alpha beta isMax player _
      exact ⟨fun _ => le_refl _, fun _ => le_refl _, fun _ _ => rfl⟩
  | succ d ih =>
      intro board alpha beta isMax player hab
      cases isMax with
      | true =>
          cases hmoves : MoveValidator.getAllValidMoves board player with
          | nil =>
              have hr : Minimax.minimax board (d + 1) alpha beta true player
                  = Score.ofInt (-Evaluator.WIN_SCORE) := by
                simp [Minimax.minimax, hmoves]
              have hv : specMinimax board (d + 1) true player
                  = -Evaluator.WIN_SCORE := by
                simp [specMinimax, hmoves]
              unfold KMtriple
              rw [hr, hv]
              exact ⟨fun _ => le_refl _, fun _ => le_refl _, fun _ _ => rfl⟩
          | cons pm rest =>
              have hr : Minimax.minimax board (d + 1) alpha beta true player
                  = Minimax.maxLoop
                      (fun b a bb => Minimax.minimax b d a bb false player)
                      board (pm :: rest) alpha beta ⊥ := by
                simp [Minimax.minimax, hmoves]
              have hv : specMinimax board (d + 1) true player
                  = List.foldl (fun acc q => max acc
                      (specMinimax (Move.execute board q.fromRow q.fromCol q.move)
                        d false player))
                    (specMinimax (Move.execute board pm.fromRow pm.fromCol pm.move)
                      d false player) rest := by
                simp [specMinimax, hmoves]
              have hweq : foldMax
                    (childScore (fun b => specMinimax b d false player) board)
                    (pm :: rest) ⊥
                  = Score.ofInt (specMinimax board (d + 1) true player) := by
                rw [foldMax_cons, max_eq_right bot_le,
                  show childScore (fun b => specMinimax b d false player) board pm
                    = Score.ofInt (specMinimax
                        (Move.execute board pm.fromRow pm.fromCol pm.move)
                        d false player) from rfl,
                  foldMax_ofInt_eq, hv]
              obtain ⟨hD, hA, hB, hC⟩ := maxLoop_correct
                (fun b a bb => Minimax.minimax b d a bb false player)
                (fun b => specMinimax b d false player) board
                (fun b a bb hab' => ih b a bb false player hab')
                (pm :: rest) alpha beta ⊥ hab
              unfold KMtriple
              rw [hr, ← hweq]
              exact ⟨hA, hB, hC⟩
      | false =>
          cases hmoves : MoveValidator.getAllValidMoves board player.opponent with
          | nil =>
              have hr : Minimax.minimax board (d + 1) alpha beta false player
                  = Score.ofInt Evaluator.WIN_SCORE := by
                simp [Minimax.minimax, hmoves]
              have hv : specMinimax board (d + 1) false player
                  = Evaluator.WIN_SCORE := by
                simp [specMinimax, hmoves]
              unfold KMtriple
              rw [hr, hv]
              exact ⟨fun _ => le_refl _, fun _ => le_refl _, fun _ _ => rfl⟩
          | cons pm rest =>
              have hr : Minimax.minimax board (d + 1) alpha beta false player
                  = Minimax.minLoop
                      (fun b a bb => Minimax.minimax b d a bb true player)
                      board (pm :: rest) alpha beta ⊤ := by
                simp [Minimax.minimax, hmoves]
              have hv : specMinimax board (d + 1) false player
                  = List.foldl (fun acc q => min acc
                      (specMinimax (Move.execute board q.fromRow q.fromCol q.move)
                        d true player))
                    (specMinimax (Move.execute board pm.fromRow pm.fromCol pm.move)
                      d true player) rest := by
                simp [specMinimax, hmoves]
              have hweq : foldMin
                    (childScore (fun b => specMinimax b d true player) board)
                    (pm :: rest) ⊤
                  = Score.ofInt (specMinimax board (d + 1) false player) := by
                rw [foldMin_cons, min_eq_right le_top,
                  show childScore (fun b => specMinimax b d true player) board pm
                    = Score.ofInt (specMinimax
                        (Move.execute board pm.fromRow pm.fromCol pm.move)
                        d true player) from rfl,
                  foldMin_ofInt_eq, hv]
              obtain ⟨hD, hA, hB, hC⟩ := minLoop_correct
                (fun b a bb => Minimax.minimax b d a bb true player)
                (fun b => specMinimax b d true player) board
                (fun b a bb hab' => ih b a bb true player hab')
                (pm :: rest) alpha beta ⊤ hab
              unfold KMtriple
              rw [hr, ← hweq]
              exact ⟨hA, hB, hC⟩

/-- Score carried by an optional search result (`-Infinity` when there
is none yet, matching `findBestMove`'s running comparison). -/
def bscore : Option SearchResult → Score
  | none => ⊥
  | some r => r.score

/-- Replays a capture chain move by move, requiring each move to be one
of the capture moves available from the current square on the current
board, executing it, and re-reading the (possibly promoted) rank exactly
as the enumeration does; returns the final board, square and rank. -/
def MoveValidator.replayChain (board : Board) (row col : Int) (player : Player)
    (type : PieceType) : List Move → Option (Board × Int × Int × PieceType)
  | [] => some (board, row, col, type)
  | m :: rest =>
      if m ∈ MoveValidator.getCaptureMoves board row col player type then
        let newBoard := Move.execute board row col m
        let newType :=
          ((newBoard.getPieceAt m.toRow m.toCol).map Piece.type).getD type
        MoveValidator.replayChain newBoard m.toRow m.toCol player newType rest
      else none

/-- The invariant payload of a validator-produced capture move `m` taken
from `(fromRow, fromCol)` by a piece of `mover`: the recorded captured
square is the midpoint of source and destination, that square holds an
opponent piece, and the in-range landing square is empty. -/
def capturedMidpoint (board : Board) (fromRow fromCol : Int) (mover : Player)
    (m : Move) : Prop :=
  m.capturedRow = some ((fromRow + m.toRow) / 2) ∧
  m.capturedCol = some ((fromCol + m.toCol) / 2) ∧
  (∃ q, board.getPieceAt ((fromRow + m.toRow) / 2) ((fromCol + m.toCol) / 2)
      = some q ∧ q.player ≠ mover) ∧
  MoveValidator.isValidPosition m.toRow m.toCol = true ∧
  board.getPieceAt m.toRow m.toCol = none

/-- Every move of a capture chain is a capture carrying the midpoint
invariant with respect to the board on which it is played, the board
evolving by execution (with the promoted rank re-read) between moves. -/
def chainCarriesMidpoints (board : Board) (row col : Int) (player : Player)
    (type : PieceType) : List Move → Prop
  | [] => True
  | m :: rest =>
      m.type = MoveType.Capture ∧
      capturedMidpoint board row col player m ∧
      chainCarriesMidpoints (Move.execute board row col m) m.toRow m.toCol player
        (((Move.execute board row col m).getPieceAt m.toRow m.toCol).map
            Piece.type |>.getD type) rest

lemma findLoop_score (f : Board → Score → Score) (g : Board → Int) (board : Board)
    (hf : ∀ b a, a < ⊤ → KMtriple (f b a) (g b) a ⊤)
    (hft : ∀ b a, f b a < ⊤) :
    ∀ (moves : List PieceMove) (best : Option SearchResult) (alpha : Score),
      bscore best = alpha → alpha < ⊤ →
      bscore (Minimax.findLoop f board moves best alpha)
        = foldMax (childScore g board) moves alpha := by
  intro moves
  induction moves with
  | nil =>
      intro best alpha hb _
      exact hb
  | cons pm rest ih =>
      intro best alpha hb htop
      obtain ⟨h1, h2, h3⟩ := hf (Move.execute board pm.fromRow pm.fromCol pm.move) alpha htop
      have hgs : childScore g board pm =
          Score.ofInt (g (Move.execute board pm.fromRow pm.fromCol pm.move)) := rfl
      set s := f (Move.execute board pm.fromRow pm.fromCol pm.move) alpha with hs
      set sv := childScore g board pm with hsv
      rw [← hgs] at h1 h2 h3
      rcases le_or_lt s alpha with hsa | has
      · have hv : sv ≤ s := h1 hsa
        have hmax : max alpha s = alpha := max_eq_left hsa
        have hmaxv : max alpha sv = alpha := max_eq_left (hv.trans hsa)
        rw [foldMax_cons, hmaxv]
        cases best with
        | none =>
            have halpha : (⊥ : Score) = alpha := hb
            have hsbot : s = ⊥ := le_bot_iff.mp (halpha ▸ hsa)
            have hstep : Minimax.findLoop f board (pm :: rest) none alpha
                = Minimax.findLoop f board rest
                    (some ⟨pm.fromRow, pm.fromCol, pm.move, s⟩) (max alpha s) := rfl
            rw [hstep, hmax]
            exact ih (some ⟨pm.fromRow, pm.fromCol, pm.move, s⟩) alpha
              (by show s = alpha; rw [hsbot, halpha]) htop
        | some b =>
            have hbs : b.score = alpha := hb
            have hstep : Minimax.findLoop f board (pm :: rest) (some b) alpha
                = Minimax.findLoop f board rest
                    (if b.score < s then some ⟨pm.fromRow, pm.fromCol, pm.move, s⟩
                     else some b) (max alpha s) := rfl
            rw [hstep, hmax, if_neg (not_lt.mpr (hbs ▸ hsa))]
            exact ih (some b) alpha hb htop
      · have hst : s < ⊤ := hft _ _
        have hsev : s = sv := h3 has hst
        have hmax : max alpha s = s := max_eq_right has.le
        rw [foldMax_cons, ← hsv, ← hsev, hmax]
        cases best with
        | none =>
            have hstep : Minimax.findLoop f board (pm :: rest) none alpha
                = Minimax.findLoop f board rest
                    (some ⟨pm.fromRow, pm.fromCol, pm.move, s⟩) (max alpha s) := rfl
            rw [hstep, hmax]
            exact ih (some ⟨pm.fromRow, pm.fromCol, pm.move, s⟩) s rfl hst
        | some b =>
            have hbs : b.score = alpha := hb
            have hstep : Minimax.findLoop f board (pm :: rest) (some b) alpha
                = Minimax.findLoop f board rest
                    (if b.score < s then some ⟨pm.fromRow, pm.fromCol, pm.move, s⟩
                     else some b) (max alpha s) := rfl
            rw [hstep, hmax, if_pos (hbs ▸ has)]
            exact ih (some ⟨pm.fromRow, pm.fromCol, pm.move, s⟩) s rfl hst

lemma findCaptureChains_sound :
    ∀ (board : Board) (row col : Int) (player : Player) (ptype : PieceType)
      (acc : List Move),
      ∀ chain ∈ MoveValidator.findCaptureChains board row col player ptype acc,
      ∃ suffix, chain = acc ++ suffix ∧
        (∃ fb fr fc ft,
          MoveValidator.replayChain board row col player ptype suffix
            = some (fb, fr, fc, ft) ∧
          MoveValidator.getCaptureMoves fb fr fc player ft = []) ∧
        (suffix = [] → acc ≠ []) := by
  intro board row col player ptype acc
  induction board, row, col, player, ptype, acc
    using MoveValidator.findCaptureChains.induct with
  | case1 board row col player type acc captures hcap hacc =>
      intro chain hchain
      have hcap' : (MoveValidator.getCaptureMoves board row col player type).length = 0 :=
        hcap
      have hacc' : acc.length > 0 := hacc
      rw [MoveValidator.findCaptureChains.eq_def] at hchain
      simp only [dif_pos hcap', if_pos hacc'] at hchain
      rw [List.mem_singleton] at hchain
      refine ⟨[], by rw [hchain, List.append_nil], ⟨board, row, col, type, rfl, ?_⟩,
        fun _ => List.length_pos.mp hacc'⟩
      exact List.length_eq_zero.mp hcap'
  | case2 board row col player type acc captures hcap hacc =>
      intro chain hchain
      have hcap' : (MoveValidator.getCaptureMoves board row col player type).length = 0 :=
        hcap
      have hacc' : ¬ acc.length > 0 := hacc
      rw [MoveValidator.findCaptureChains.eq_def] at hchain
      simp only [dif_pos hcap', if_neg hacc'] at hchain
      exact absurd hchain (List.not_mem_nil chain)
  | case3 board row col player type acc captures hcap ih =>
      intro chain hchain
      have hcap' : ¬ (MoveValidator.getCaptureMoves board row col player type).length = 0 :=
        hcap
      rw [MoveValidator.findCaptureChains.eq_def] at hchain
      simp only [dif_neg hcap'] at hchain
      rw [List.mem_flatMap] at hchain
      obtain ⟨c, _, hchain'⟩ := hchain
      obtain ⟨suffix', hchain, ⟨fb, fr, fc, ft, hreplay, hfinal⟩, _⟩ :=
        ih c chain hchain'
      refine ⟨c.1 :: suffix', ?_, ⟨fb, fr, fc, ft, ?_, hfinal⟩, ?_⟩
      · rw [hchain]
        simp
      · rw [MoveValidator.replayChain, if_pos c.2]
        exact hreplay
      · intro h
        exact absurd h (by simp)

lemma findCaptureChains_ne_nil :
    ∀ (board : Board) (row col : Int) (player : Player) (ptype : PieceType)
      (acc : List Move),
      (acc ≠ [] ∨ MoveValidator.getCaptureMoves board row col player ptype ≠ []) →
      MoveValidator.findCaptureChains board row col player ptype acc ≠ [] := by
  intro board row col player ptype acc
  induction board, row, col, player, ptype, acc
    using MoveValidator.findCaptureChains.induct with
  | case1 board row col player type acc captures hcap hacc =>
      intro _
      have hcap' : (MoveValidator.getCaptureMoves board row col player type).length = 0 :=
        hcap
      have hacc' : acc.length > 0 := hacc
      rw [MoveValidator.findCaptureChains.eq_def]
      simp only [dif_pos hcap', if_pos hacc']
      simp
  | case2 board row col player type acc captures hcap hacc =>
      intro h
      have hcap' : (MoveValidator.getCaptureMoves board row col player type).length = 0 :=
        hcap
      have hacc' : ¬ acc.length > 0 := hacc
      rcases h with h | h
      · exact absurd (List.length_pos.mpr h) hacc'
      · exact absurd (List.length_eq_zero.mp hcap') h
  | case3 board row col player type acc captures hcap ih =>
      intro _
      have hcap' : ¬ (MoveValidator.getCaptureMoves board row col player type).length = 0 :=
        hcap
      rw [MoveValidator.findCaptureChains.eq_def]
      simp only [dif_neg hcap']
      intro heq
      rw [List.flatMap_eq_nil_iff] at heq
      have hne : MoveValidator.getCaptureMoves board row col player type ≠ [] := by
        intro hnil
        exact hcap' (by rw [hnil]; rfl)
      obtain ⟨c, hcmem⟩ := List.exists_mem_of_ne_nil _ hne
      have hmem := List.mem_attach _
        (⟨c, hcmem⟩ : { x // x ∈ MoveValidator.getCaptureMoves board row col player type })
      have := heq _ hmem
      exact ih _ (Or.inl (by simp)) this

lemma mem_getRegularMoves {board : Board} {row col : Int} {player : Player}
    {type : PieceType} {m : Move}
    (h : m ∈ MoveValidator.getRegularMoves board row col player type) :
    ∃ d ∈ MoveValidator.getDirections player type,
      m = { toRow := row + d.1, toCol := col + d.2, type := MoveType.Regular } ∧
      MoveValidator.isValidPosition (row + d.1) (col + d.2) = true ∧
      board.getPieceAt (row + d.1) (col + d.2) = none := by
  unfold MoveValidator.getRegularMoves at h
  rw [List.mem_filterMap] at h
  obtain ⟨d, hd, heq⟩ := h
  refine ⟨d, hd, ?_⟩
  simp only at heq
  split at heq
  · next hcond =>
    injection heq with h'
    exact ⟨h'.symm, hcond.1, hcond.2⟩
  · exact absurd heq (by simp)

lemma replayChain_carries :
    ∀ (chain : List Move) (board : Board) (row col : Int) (player : Player)
      (ptype : PieceType) (res : Board × Int × Int × PieceType),
      MoveValidator.replayChain board row col player ptype chain = some res →
      chainCarriesMidpoints board row col player ptype chain := by
  intro chain
  induction chain with
  | nil =>
      intro board row col player ptype res _
      exact trivial
  | cons m rest ih =>
      intro board row col player ptype res h
      have hstep : MoveValidator.replayChain board row col player ptype (m :: rest)
          = if m ∈ MoveValidator.getCaptureMoves board row col player ptype then
              MoveValidator.replayChain (Move.execute board row col m) m.toRow m.toCol
                player
                (((Move.execute board row col m).getPieceAt m.toRow m.toCol).map
                    Piece.type |>.getD ptype) rest
            else none := rfl
      rw [hstep] at h
      by_cases hm : m ∈ MoveValidator.getCaptureMoves board row col player ptype
      · rw [if_pos hm] at h
        obtain ⟨d, hd, hmeq, hvalid, ⟨q, hjp, hqp⟩, hland⟩ :=
          MoveValidator.mem_getCaptureMoves hm
        subst hmeq
        have hr2 : (row + (row + 2 * d.1)) / 2 = row + d.1 := by omega
        have hc2 : (col + (col + 2 * d.2)) / 2 = col + d.2 := by omega
        refine ⟨rfl, ⟨?_, ?_, ?_, ?_, ?_⟩, ih _ _ _ _ _ _ h⟩
        · show some (row + d.1) = some ((row + (row + 2 * d.1)) / 2)
          rw [hr2]
        · show some (col + d.2) = some ((col + (col + 2 * d.2)) / 2)
          rw [hc2]
        · show ∃ q', board.getPieceAt ((row + (row + 2 * d.1)) / 2)
              ((col + (col + 2 * d.2)) / 2) = some q' ∧ q'.player ≠ player
          rw [hr2, hc2]
          exact ⟨q, hjp, hqp⟩
        · exact hvalid
        · exact hland
      · rw [if_neg hm] at h
        exact absurd h (by simp)

/-- The first pass of `getAllValidMoves`: it appends exactly the capture
moves of every piece (in scan order) and its flag records whether any
piece had a capture. -/
lemma getAllValidMoves_firstPass (board : Board) :
    ∀ (pieces : List Board.PieceEntry) (acc : List PieceMove) (flag : Bool),
      (pieces.foldl
          (fun acc e =>
            let captures := MoveValidator.getCaptureMoves board e.row e.col
              e.piece.player e.piece.type
            if captures.length > 0 then
              (acc.1 ++ captures.map fun m => PieceMove.mk e.row e.col m, true)
            else acc)
          (acc, flag)).1
        = acc ++ pieces.flatMap (fun e =>
            (MoveValidator.getCaptureMoves board e.row e.col
                e.piece.player e.piece.type).map
              fun m => PieceMove.mk e.row e.col m) ∧
      ((pieces.foldl
          (fun acc e =>
            let captures := MoveValidator.getCaptureMoves board e.row e.col
              e.piece.player e.piece.type
            if captures.length > 0 then
              (acc.1 ++ captures.map fun m => PieceMove.mk e.row e.col m, true)
            else acc)
          (acc, flag)).2 = true ↔
        flag = true ∨ ∃ e ∈ pieces,
          MoveValidator.getCaptureMoves board e.row e.col
            e.piece.player e.piece.type ≠ []) := by
  intro pieces
  induction pieces with
  | nil =>
      intro acc flag
      constructor
      · simp
      · simp
  | cons e rest ih =>
      intro acc flag
      rw [List.foldl_cons]
      by_cases hcl : (MoveValidator.getCaptureMoves board e.row e.col
          e.piece.player e.piece.type).length > 0
      · have hne : MoveValidator.getCaptureMoves board e.row e.col
            e.piece.player e.piece.type ≠ [] := by
          intro hnil
          rw [hnil] at hcl
          exact absurd hcl (by simp)
        simp only [if_pos hcl]
        obtain ⟨ih1, ih2⟩ := ih
          (acc ++ (MoveValidator.getCaptureMoves board e.row e.col
            e.piece.player e.piece.type).map fun m => PieceMove.mk e.row e.col m) true
        constructor
        · rw [ih1, List.flatMap_cons, List.append_assoc]
        · rw [ih2]
          constructor
          · intro _
            exact Or.inr ⟨e, List.mem_cons_self e rest, hne⟩
          · intro _
            exact Or.inl rfl
      · have hnil : MoveValidator.getCaptureMoves board e.row e.col
            e.piece.player e.piece.type = [] := by
          rcases List.eq_nil_or_concat (MoveValidator.getCaptureMoves board e.row e.col
            e.piece.player e.piece.type) with h | ⟨l, x, h⟩
          · exact h
          · rw [h] at hcl
            exact absurd (by simp) hcl
        simp only [if_neg hcl]
        obtain ⟨ih1, ih2⟩ := ih acc flag
        constructor
        · rw [ih1, List.flatMap_cons, hnil]
          simp
        · rw [ih2]
          constructor
          · intro h
            rcases h with h | ⟨e', he', hce'⟩
            · exact Or.inl h
            · exact Or.inr ⟨e', List.mem_cons_of_mem e he', hce'⟩
          · intro h
            rcases h with h | ⟨e', he', hce'⟩
            · exact Or.inl h
            · rcases List.mem_cons.mp he' with rfl | he''
              · exact absurd hnil hce'
              · exact Or.inr ⟨e', he'', hce'⟩

/-- The second pass of `getAllValidMoves` appends exactly the quiet step
moves of every piece in scan order. -/
lemma getAllValidMoves_secondPass (board : Board) :
    ∀ (pieces : List Board.PieceEntry) (acc : List PieceMove),
      pieces.foldl
        (fun acc e =>
          acc ++ (MoveValidator.getRegularMoves board e.row e.col
              e.piece.player e.piece.type).map
            fun m => PieceMove.mk e.row e.col m)
        acc
        = acc ++ pieces.flatMap (fun e =>
            (MoveValidator.getRegularMoves board e.row e.col
                e.piece.player e.piece.type).map
              fun m => PieceMove.mk e.row e.col m) := by
  intro pieces
  induction pieces with
  | nil => intro acc; simp
  | cons e rest ih =>
      intro acc
      rw [List.foldl_cons, ih, List.flatMap_cons, List.append_assoc]

/-- Global forced-capture dichotomy of `getAllValidMoves`: either some
piece has a capture and the result is exactly the concatenated capture
moves of all pieces, or no piece has one and the result is exactly the
concatenated quiet moves of all pieces. -/
lemma getAllValidMoves_cases (board : Board) (player : Player) :
    (MoveValidator.getAllValidMoves board player
        = (board.getPieces player).flatMap (fun e =>
            (MoveValidator.getCaptureMoves board e.row e.col
                e.piece.player e.piece.type).map
              fun m => PieceMove.mk e.row e.col m)
      ∧ ∃ e ∈ board.getPieces player,
          MoveValidator.getCaptureMoves board e.row e.col
            e.piece.player e.piece.type ≠ [])
    ∨ (MoveValidator.getAllValidMoves board player
        = (board.getPieces player).flatMap (fun e =>
            (MoveValidator.getRegularMoves board e.row e.col
                e.piece.player e.piece.type).map
              fun m => PieceMove.mk e.row e.col m)
      ∧ ∀ e ∈ board.getPieces player,
          MoveValidator.getCaptureMoves board e.row e.col
            e.piece.player e.piece.type = []) := by
  obtain ⟨h1, h2⟩ := getAllValidMoves_firstPass board (board.getPieces player) [] false
  simp only [MoveValidator.getAllValidMoves]
  split
  · next hflag =>
    left
    constructor
    · rw [h1]
      simp
    · rcases h2.mp hflag with h | h
      · exact absurd h (by simp)
      · exact h
  · next hflag =>
    right
    have hnone : ∀ e ∈ board.getPieces player,
        MoveValidator.getCaptureMoves board e.row e.col
          e.piece.player e.piece.type = [] := by
      intro e he
      by_contra hne
      exact hflag (h2.mpr (Or.inr ⟨e, he, hne⟩))
    have hcaps : (board.getPieces player).flatMap (fun e =>
        (MoveValidator.getCaptureMoves board e.row e.col
            e.piece.player e.piece.type).map
          fun m => PieceMove.mk e.row e.col m) = [] := by
      rw [List.flatMap_eq_nil_iff]
      intro e he
      rw [hnone e he]
      rfl
    constructor
    · rw [getAllValidMoves_secondPass, h1, hcaps]
      simp
    · exact hnone

lemma getCaptureMoves_isCapture {board : Board} {row col : Int} {player : Player}
    {type : PieceType} {m : Move}
    (h : m ∈ MoveValidator.getCaptureMoves board row col player type) :
    m.type = MoveType.Capture := by
  obtain ⟨d, _, hmeq, _⟩ := MoveValidator.mem_getCaptureMoves h
  rw [hmeq]

lemma getRegularMoves_isRegular {board : Board} {row col : Int} {player : Player}
    {type : PieceType} {m : Move}
    (h : m ∈ MoveValidator.getRegularMoves board row col player type) :
    m.type = MoveType.Regular ∧ m.capturedRow = none ∧ m.capturedCol = none := by
  obtain ⟨d, _, hmeq, _⟩ := mem_getRegularMoves h
  rw [hmeq]
  exact ⟨rfl, rfl, rfl⟩

/-- A validator capture move carries the midpoint invariant. -/
lemma getCaptureMoves_midpoint {board : Board} {row col : Int} {player : Player}
    {type : PieceType} {m : Move}
    (h : m ∈ MoveValidator.getCaptureMoves board row col player type) :
    capturedMidpoint board row col player m := by
  obtain ⟨d, hd, hmeq, hvalid, ⟨q, hjp, hqp⟩, hland⟩ :=
    MoveValidator.mem_getCaptureMoves h
  subst hmeq
  have hr2 : (row + (row + 2 * d.1)) / 2 = row + d.1 := by omega
  have hc2 : (col + (col + 2 * d.2)) / 2 = col + d.2 := by omega
  refine ⟨?_, ?_, ?_, hvalid, hland⟩
  · show some (row + d.1) = some ((row + (row + 2 * d.1)) / 2)
    rw [hr2]
  · show some (col + d.2) = some ((col + (col + 2 * d.2)) / 2)
    rw [hc2]
  · show ∃ q', board.getPieceAt ((row + (row + 2 * d.1)) / 2)
        ((col + (col + 2 * d.2)) / 2) = some q' ∧ q'.player ≠ player
    rw [hr2, hc2]
    exact ⟨q, hjp, hqp⟩

lemma Board.getPieceAt_setPiece_self (b : Board) (row col : Int) (v : Option Piece)
    (h : 0 ≤ row ∧ row < 8 ∧ 0 ≤ col ∧ col < 8) :
    (b.setPiece row col v).getPieceAt row col = v := by
  obtain ⟨h1, h2, h3, h4⟩ := h
  unfold Board.setPiece
  rw [if_pos ⟨h1, h2, h3, h4⟩]
  unfold Board.getPieceAt
  rw [if_neg (by omega : ¬(row < 0 ∨ 8 ≤ row ∨ col < 0 ∨ 8 ≤ col))]
  exact if_pos ⟨rfl, rfl⟩

/-- C9: the evaluator scores the symmetric starting position as exactly 0
for both players. -/
theorem C9_initial_position_evaluates_to_zero :
    Evaluator.evaluate Board.initial Player.red = 0 ∧
    Evaluator.evaluate Board.initial Player.black = 0 := by
  decide

/-- C7 counterexample: on the all-empty board the evaluated player has
zero pieces, yet `evaluate` returns `+WIN_SCORE` (the opponent-empty
check fires first), not `-WIN_SCORE` as the claim, read literally for
every board, demands. -/
theorem C7_counterexample :
    Board.empty.getPieces Player.red = [] ∧
    Evaluator.evaluate Board.empty Player.red = Evaluator.WIN_SCORE ∧
    Evaluator.evaluate Board.empty Player.red ≠ -Evaluator.WIN_SCORE := by
  decide

/-- C7 (amended): `evaluate` returns exactly `+WIN_SCORE` whenever the
opponent has zero pieces (that check fires first, also when both sides
are empty), and exactly `-WIN_SCORE` when the player has zero pieces and
the opponent does not; both checks are decided before the per-piece
positional summation, which the branch structure of the definition
makes explicit. -/
theorem C7_evaluate_terminal (board : Board) (player : Player) :
    (board.getPieces player.opponent = [] →
      Evaluator.evaluate board player = Evaluator.WIN_SCORE) ∧
    (board.getPieces player.opponent ≠ [] → board.getPieces player = [] →
      Evaluator.evaluate board player = -Evaluator.WIN_SCORE) := by
  constructor
  · intro h
    unfold Evaluator.evaluate
    rw [if_pos (by rw [h]; rfl)]
  · intro hopp hpl
    unfold Evaluator.evaluate
    rw [if_neg (by simpa using hopp), if_pos (by rw [hpl]; rfl)]

/-- C5 counterexample: `movePiece` with the out-of-range source row 8
throws (the source reads `grid[8][1]` and `grid[8]` is `undefined`),
instead of being silently ignored. -/
theorem C5_counterexample :
    Board.initial.movePiece 8 1 5 0
      = Board.MoveResult.thrown Board.initial "TypeError" := rfl

/-- C5 (amended): the guarded write operations `setPiece` and
`removePiece` silently ignore any out-of-range coordinate, leaving the
board unchanged; `movePiece`, however, is unguarded and throws a
TypeError whenever its source row is out of range, and likewise — with a
piece present at an in-range source — whenever its destination row is out
of range (the assignment `grid[toRow][toCol]` happening after the source
square was already cleared). -/
theorem C5_out_of_range_writes (b : Board) (row col : Int) (p : Option Piece)
    (h : row < 0 ∨ 8 ≤ row ∨ col < 0 ∨ 8 ≤ col) :
    b.setPiece row col p = b ∧ b.removePiece row col = b ∧
    ((row < 0 ∨ 8 ≤ row) →
      (∀ toRow toCol : Int, b.movePiece row col toRow toCol
        = Board.MoveResult.thrown b "TypeError") ∧
      (∀ fromRow fromCol : Int, ∀ q : Piece,
        b.getPieceAt fromRow fromCol = some q →
        b.movePiece fromRow fromCol row col
          = Board.MoveResult.thrown (b.setPiece fromRow fromCol none)
              "TypeError")) := by
  have hset : ∀ v : Option Piece, b.setPiece row col v = b := by
    intro v
    unfold Board.setPiece
    rw [if_neg (by omega)]
  refine ⟨hset p, hset none, ?_⟩
  intro hrow
  constructor
  · intro toRow toCol
    unfold Board.movePiece
    rw [if_pos hrow]
  · intro fromRow fromCol q hq
    obtain ⟨⟨hfr0, hfr8, _, _⟩, _⟩ := Board.getPieceAt_eq_some hq
    unfold Board.movePiece
    rw [if_neg (by omega : ¬(fromRow < 0 ∨ 8 ≤ fromRow)), hq]
    simp only
    rw [if_pos hrow]

/-- C6: a successful `movePiece` of an existing piece onto an in-range
destination promotes a Regular piece to King exactly when it lands on
its opponent's back rank (row 7 for red, row 0 for black); any other
landing leaves the rank unchanged, and a King is never altered by the
promotion check. -/
theorem C6_promotion_on_back_rank (b : Board) (fromRow fromCol toRow toCol : Int)
    (p : Piece) (hp : b.getPieceAt fromRow fromCol = some p)
    (hto : 0 ≤ toRow ∧ toRow < 8 ∧ 0 ≤ toCol ∧ toCol < 8) :
    ∃ b', b.movePiece fromRow fromCol toRow toCol = Board.MoveResult.ok b' ∧
      b'.getPieceAt toRow toCol = some
        { player := p.player,
          type := if p.type = PieceType.Regular ∧
              ((p.player = Player.red ∧ toRow = 7) ∨
               (p.player = Player.black ∧ toRow = 0))
            then PieceType.King else p.type } := by
  obtain ⟨⟨hfr0, hfr8, _, _⟩, _⟩ := Board.getPieceAt_eq_some hp
  unfold Board.movePiece
  rw [if_neg (by omega : ¬(fromRow < 0 ∨ 8 ≤ fromRow)), hp]
  simp only
  rw [if_neg (by omega : ¬(toRow < 0 ∨ 8 ≤ toRow))]
  refine ⟨_, rfl, ?_⟩
  rw [Board.getPieceAt_setPiece_self _ _ _ _ hto]
  congr 1
  split
  · next hc => rfl
  · next hc => rfl

/-- C4: a Regular piece's generated step and capture moves never move
against its forward direction (red moves toward increasing rows, black
toward decreasing rows), and a King's generated directions are all four
diagonals. -/
theorem C4_directions (board : Board) (row col : Int) (piece : Piece)
    (_hp : board.getPieceAt row col = some piece) :
    (piece.type = PieceType.Regular →
      ∀ m, (m ∈ MoveValidator.getRegularMoves board row col piece.player piece.type ∨
            m ∈ MoveValidator.getCaptureMoves board row col piece.player piece.type) →
        (piece.player = Player.red → ¬ m.toRow < row) ∧
        (piece.player = Player.black → ¬ row < m.toRow)) ∧
    (piece.type = PieceType.King →
      MoveValidator.getDirections piece.player piece.type
        = MoveValidator.DIRECTIONS) := by
  constructor
  · intro hreg m hm
    have hdir : ∀ d ∈ MoveValidator.getDirections piece.player piece.type,
        (piece.player = Player.red → d.1 = 1) ∧
        (piece.player = Player.black → d.1 = -1) := by
      intro d hd
      rw [hreg] at hd
      constructor <;> intro hpl <;> rw [hpl] at hd <;>
        simp [MoveValidator.getDirections] at hd <;>
        rcases hd with rfl | rfl <;> rfl
    rcases hm with hm | hm
    · obtain ⟨d, hd, hmeq, _⟩ := mem_getRegularMoves hm
      obtain ⟨hred, hblack⟩ := hdir d hd
      rw [hmeq]
      constructor <;> intro hpl
      · have := hred hpl; simp only; omega
      · have := hblack hpl; simp only; omega
    · obtain ⟨d, hd, hmeq, _⟩ := MoveValidator.mem_getCaptureMoves hm
      obtain ⟨hred, hblack⟩ := hdir d hd
      rw [hmeq]
      constructor <;> intro hpl
      · have := hred hpl; simp only; omega
      · have := hblack hpl; simp only; omega
  · intro hking
    rw [hking]
    unfold MoveValidator.getDirections
    rw [if_pos rfl]

lemma getPieces_player {b : Board} {player : Player} {e : Board.PieceEntry}
    (h : e ∈ b.getPieces player) : e.piece.player = player := by
  unfold Board.getPieces at h
  rw [List.mem_flatMap] at h
  obtain ⟨r, _, h⟩ := h
  rw [List.mem_filterMap] at h
  obtain ⟨c, _, h⟩ := h
  split at h
  · next piece hpg =>
    split at h
    · next hpl =>
      injection h with h'
      rw [← h']
      exact hpl
    · exact absurd h (by simp)
  · exact absurd h (by simp)

/-- C2: global forced capture.  If any of the player's pieces has a
capture available, `getAllValidMoves` returns exactly the capture moves
of all pieces that have them (quiet moves of every piece excluded, every
returned move is a capture); if no piece has a capture, it returns
exactly the quiet step moves of every piece. -/
theorem C2_global_forced_capture (board : Board) (player : Player) :
    ((∃ e ∈ board.getPieces player,
        MoveValidator.getCaptureMoves board e.row e.col
          e.piece.player e.piece.type ≠ []) →
      MoveValidator.getAllValidMoves board player
        = (board.getPieces player).flatMap (fun e =>
            (MoveValidator.getCaptureMoves board e.row e.col
                e.piece.player e.piece.type).map
              fun m => PieceMove.mk e.row e.col m) ∧
      ∀ pm ∈ MoveValidator.getAllValidMoves board player,
        pm.move.type = MoveType.Capture) ∧
    ((∀ e ∈ board.getPieces player,
        MoveValidator.getCaptureMoves board e.row e.col
          e.piece.player e.piece.type = []) →
      MoveValidator.getAllValidMoves board player
        = (board.getPieces player).flatMap (fun e =>
            (MoveValidator.getRegularMoves board e.row e.col
                e.piece.player e.piece.type).map
              fun m => PieceMove.mk e.row e.col m)) := by
  rcases getAllValidMoves_cases board player with ⟨heq, hex⟩ | ⟨heq, hall⟩
  · constructor
    · intro _
      refine ⟨heq, ?_⟩
      intro pm hpm
      rw [heq, List.mem_flatMap] at hpm
      obtain ⟨e, _, hpm⟩ := hpm
      rw [List.mem_map] at hpm
      obtain ⟨m, hm, rfl⟩ := hpm
      exact getCaptureMoves_isCapture hm
    · intro hnone
      obtain ⟨e, he, hne⟩ := hex
      exact absurd (hnone e he) hne
  · constructor
    · intro hexists
      obtain ⟨e, he, hne⟩ := hexists
      exact absurd (hall e he) hne
    · intro _
      exact heq

/-- C10: every capture move produced by `getValidMoves`,
`getAllValidMoves` or during chain enumeration records the jumped square
as the midpoint of source and destination, with that square holding an
opponent piece and the in-range landing square empty; every quiet move
carries no captured coordinates. -/
theorem C10_captured_coordinates (board : Board) (row col : Int) (player : Player) :
    (∀ piece, board.getPieceAt row col = some piece →
      ∀ m ∈ MoveValidator.getValidMoves board row col,
        (m.type = MoveType.Capture →
          capturedMidpoint board row col piece.player m) ∧
        (m.type = MoveType.Regular →
          m.capturedRow = none ∧ m.capturedCol = none)) ∧
    (∀ pm ∈ MoveValidator.getAllValidMoves board player,
        (pm.move.type = MoveType.Capture →
          capturedMidpoint board pm.fromRow pm.fromCol player pm.move) ∧
        (pm.move.type = MoveType.Regular →
          pm.move.capturedRow = none ∧ pm.move.capturedCol = none)) ∧
    (∀ chain ∈ MoveValidator.getCaptureChains board row col,
      ∀ piece, board.getPieceAt row col = some piece →
        chainCarriesMidpoints board row col piece.player piece.type chain) := by
  refine ⟨?_, ?_, ?_⟩
  · intro piece hp m hm
    unfold MoveValidator.getValidMoves at hm
    rw [hp] at hm
    simp only at hm
    split at hm
    · have hcap := getCaptureMoves_isCapture hm
      constructor
      · intro _
        exact getCaptureMoves_midpoint hm
      · intro hreg
        rw [hcap] at hreg
        exact absurd hreg (by simp)
    · obtain ⟨hreg, hcr, hcc⟩ := getRegularMoves_isRegular hm
      constructor
      · intro hcap
        rw [hreg] at hcap
        exact absurd hcap (by simp)
      · intro _
        exact ⟨hcr, hcc⟩
  · intro pm hpm
    rcases getAllValidMoves_cases board player with ⟨heq, _⟩ | ⟨heq, _⟩ <;>
      rw [heq, List.mem_flatMap] at hpm <;>
      obtain ⟨e, he, hpm⟩ := hpm <;>
      rw [List.mem_map] at hpm <;>
      obtain ⟨m, hm, rfl⟩ := hpm
    · have hcap := getCaptureMoves_isCapture hm
      constructor
      · intro _
        have hmid := getCaptureMoves_midpoint hm
        rw [getPieces_player he] at hmid
        exact hmid
      · intro hreg
        rw [hcap] at hreg
        exact absurd hreg (by simp)
    · obtain ⟨hreg, hcr, hcc⟩ := getRegularMoves_isRegular hm
      constructor
      · intro hcap
        rw [hreg] at hcap
        exact absurd hcap (by simp)
      · intro _
        exact ⟨hcr, hcc⟩
  · intro chain hchain piece hp
    unfold MoveValidator.getCaptureChains at hchain
    rw [hp] at hchain
    simp only at hchain
    obtain ⟨suffix, hsfx, ⟨fb, fr, fc, ft, hreplay, _⟩, _⟩ :=
      findCaptureChains_sound board row col piece.player piece.type [] chain hchain
    rw [List.nil_append] at hsfx
    subst hsfx
    exact replayChain_carries chain board row col piece.player piece.type _ hreplay

/-- C3: every chain returned by `getCaptureChains` is a nonempty maximal
sequence of consecutive captures — it replays move by move through the
validator on the evolving board (promotions mid-chain included) and ends
on a square with no further capture — and the result is the empty list
exactly when the square is empty or its piece has no initial capture. -/
theorem C3_capture_chains_maximal (board : Board) (row col : Int) :
    (∀ chain ∈ MoveValidator.getCaptureChains board row col,
      chain ≠ [] ∧
      ∃ piece, board.getPieceAt row col = some piece ∧
        ∃ fb fr fc ft,
          MoveValidator.replayChain board row col piece.player piece.type chain
            = some (fb, fr, fc, ft) ∧
          MoveValidator.getCaptureMoves fb fr fc piece.player ft = []) ∧
    (MoveValidator.getCaptureChains board row col = [] ↔
      board.getPieceAt row col = none ∨
      ∃ piece, board.getPieceAt row col = some piece ∧
        MoveValidator.getCaptureMoves board row col piece.player piece.type = []) := by
  cases hp : board.getPieceAt row col with
  | none =>
      constructor
      · intro chain hchain
        unfold MoveValidator.getCaptureChains at hchain
        rw [hp] at hchain
        exact absurd hchain (by simp)
      · constructor
        · intro _
          exact Or.inl rfl
        · intro _
          unfold MoveValidator.getCaptureChains
          rw [hp]
  | some p =>
      have hunfold : MoveValidator.getCaptureChains board row col
          = MoveValidator.findCaptureChains board row col p.player p.type [] := by
        unfold MoveValidator.getCaptureChains
        rw [hp]
      constructor
      · intro chain hchain
        rw [hunfold] at hchain
        obtain ⟨suffix, hsfx, ⟨fb, fr, fc, ft, hreplay, hfinal⟩, hnil⟩ :=
          findCaptureChains_sound board row col p.player p.type [] chain hchain
        rw [List.nil_append] at hsfx
        subst hsfx
        refine ⟨?_, p, rfl, fb, fr, fc, ft, hreplay, hfinal⟩
        intro hchainnil
        exact (hnil hchainnil) rfl
      · rw [hunfold]
        constructor
        · intro hempty
          by_cases hcaps : MoveValidator.getCaptureMoves board row col p.player p.type = []
          · exact Or.inr ⟨p, rfl, hcaps⟩
          · exact absurd hempty
              (findCaptureChains_ne_nil board row col p.player p.type [] (Or.inr hcaps))
        · intro h
          rcases h with h | ⟨piece, hpc, hcaps⟩
          · exact absurd h (by simp)
          · injection hpc with hpc'
            subst hpc'
            rw [MoveValidator.findCaptureChains.eq_def,
              dif_pos (show (MoveValidator.getCaptureMoves board row col
                  p.player p.type).length = 0 by rw [hcaps]; rfl)]
            rfl

/-- C1: for any board, player and depth ≥ 1, the score carried by the
`SearchResult` returned by `findBestMove` equals the value of the
unpruned full minimax traversal of the same game tree (`specMinimax`,
built from the spec: same move generation, depth-0 leaves evaluated from
the fixed player's perspective, a stuck side scored `∓WIN_SCORE`);
alpha-beta pruning never changes the returned value. -/
theorem C1_alphabeta_equals_unpruned (board : Board) (player : Player)
    (depth : Nat) (hd : 1 ≤ depth) (r : SearchResult)
    (h : Minimax.findBestMove board player depth = some r) :
    r.score = Score.ofInt (specMinimax board depth true player) := by
  obtain ⟨d, rfl⟩ : ∃ d, depth = d + 1 := ⟨depth - 1, by omega⟩
  cases hmoves : MoveValidator.getAllValidMoves board player with
  | nil =>
      have hnone : Minimax.findBestMove board player (d + 1) = none := by
        simp [Minimax.findBestMove, hmoves]
      rw [hnone] at h
      exact absurd h (by simp)
  | cons pm rest =>
      have hstep : Minimax.findBestMove board player (d + 1)
          = Minimax.findLoop (fun b a => Minimax.minimax b d a ⊤ false player)
              board (pm :: rest) none ⊥ := by
        simp [Minimax.findBestMove, hmoves]
      have hscore := findLoop_score
        (fun b a => Minimax.minimax b d a ⊤ false player)
        (fun b => specMinimax b d false player) board
        (fun b a ha => minimax_km d b a ⊤ false player ha)
        (fun b a => minimax_lt_top d b a ⊤ false player)
        (pm :: rest) none ⊥ rfl bot_lt_top
      have hv : specMinimax board (d + 1) true player
          = List.foldl (fun acc q => max acc
              (specMinimax (Move.execute board q.fromRow q.fromCol q.move)
                d false player))
            (specMinimax (Move.execute board pm.fromRow pm.fromCol pm.move)
              d false player) rest := by
        simp [specMinimax, hmoves]
      have hweq : foldMax
            (childScore (fun b => specMinimax b d false player) board)
            (pm :: rest) ⊥
          = Score.ofInt (specMinimax board (d + 1) true player) := by
        rw [foldMax_cons, max_eq_right bot_le,
          show childScore (fun b => specMinimax b d false player) board pm
            = Score.ofInt (specMinimax
                (Move.execute board pm.fromRow pm.fromCol pm.move)
                d false player) from rfl,
          foldMax_ofInt_eq, hv]
      rw [hstep] at h
      rw [h, hweq] at hscore
      exact hscore

/-- Test position: one red piece at (2,1) and one black piece at (5,2),
no captures available. -/
def witnessBoardQuiet : Board :=
  (Board.empty.setPiece 2 1 (some ⟨Player.red, PieceType.Regular⟩)).setPiece 5 2
    (some ⟨Player.black, PieceType.Regular⟩)

/-- Test position: red at (0,1) can jump black at (1,2), landing on the
empty square (2,3) with no further capture. -/
def witnessBoardCapture : Board :=
  (Board.empty.setPiece 0 1 (some ⟨Player.red, PieceType.Regular⟩)).setPiece 1 2
    (some ⟨Player.black, PieceType.Regular⟩)

/-- Test position with only a red piece. -/
def witnessBoardRedOnly : Board :=
  Board.empty.setPiece 2 1 (some ⟨Player.red, PieceType.Regular⟩)

/-- Test position with only a black piece. -/
def witnessBoardBlackOnly : Board :=
  Board.empty.setPiece 5 2 (some ⟨Player.black, PieceType.Regular⟩)

/-- Test position: a red piece one step from promotion. -/
def witnessBoardPromo : Board :=
  Board.empty.setPiece 6 1 (some ⟨Player.red, PieceType.Regular⟩)

/-- The capture move available on `witnessBoardCapture` from (0,1). -/
def capMove : Move :=
  { toRow := 2, toCol := 3, type := MoveType.Capture,
    capturedRow := some 1, capturedCol := some 2 }

theorem C1_witness :
    Minimax.findBestMove witnessBoardQuiet Player.red 1
      = some ⟨2, 1, { toRow := 3, toCol := 2, type := MoveType.Regular },
          Score.ofInt 7⟩ ∧
    (⟨2, 1, { toRow := 3, toCol := 2, type := MoveType.Regular },
        Score.ofInt 7⟩ : SearchResult).score
      = Score.ofInt (specMinimax witnessBoardQuiet 1 true Player.red) :=
  ⟨rfl, C1_alphabeta_equals_unpruned witnessBoardQuiet Player.red 1 (by decide) _ rfl⟩

theorem C2_witness :
    MoveValidator.getAllValidMoves witnessBoardCapture Player.red
      = (witnessBoardCapture.getPieces Player.red).flatMap (fun e =>
          (MoveValidator.getCaptureMoves witnessBoardCapture e.row e.col
              e.piece.player e.piece.type).map
            fun m => PieceMove.mk e.row e.col m) ∧
    ∀ pm ∈ MoveValidator.getAllValidMoves witnessBoardCapture Player.red,
      pm.move.type = MoveType.Capture :=
  (C2_global_forced_capture witnessBoardCapture Player.red).1 (by decide)

theorem C4_witness :
    ((⟨Player.red, PieceType.Regular⟩ : Piece).player = Player.red →
      ¬ ({ toRow := 3, toCol := 0, type := MoveType.Regular } : Move).toRow < 2) ∧
    ((⟨Player.red, PieceType.Regular⟩ : Piece).player = Player.black →
      ¬ (2 : Int) < ({ toRow := 3, toCol := 0, type := MoveType.Regular } : Move).toRow) :=
  (C4_directions witnessBoardQuiet 2 1 ⟨Player.red, PieceType.Regular⟩ rfl).1 rfl
    { toRow := 3, toCol := 0, type := MoveType.Regular } (Or.inl (by decide))

theorem C5_witness :
    Board.initial.setPiece (-1) 0 (some ⟨Player.red, PieceType.Regular⟩)
        = Board.initial ∧
    Board.initial.removePiece (-1) 0 = Board.initial ∧
    (((-1 : Int) < 0 ∨ (8 : Int) ≤ -1) →
      (∀ toRow toCol : Int, Board.initial.movePiece (-1) 0 toRow toCol
        = Board.MoveResult.thrown Board.initial "TypeError") ∧
      (∀ fromRow fromCol : Int, ∀ q : Piece,
        Board.initial.getPieceAt fromRow fromCol = some q →
        Board.initial.movePiece fromRow fromCol (-1) 0
          = Board.MoveResult.thrown
              (Board.initial.setPiece fromRow fromCol none) "TypeError")) :=
  C5_out_of_range_writes Board.initial (-1) 0 (some ⟨Player.red, PieceType.Regular⟩)
    (by decide)

theorem C6_witness :
    ∃ b', witnessBoardPromo.movePiece 6 1 7 2 = Board.MoveResult.ok b' ∧
      b'.getPieceAt 7 2 = some
        { player := (⟨Player.red, PieceType.Regular⟩ : Piece).player,
          type := if (⟨Player.red, PieceType.Regular⟩ : Piece).type = PieceType.Regular ∧
              (((⟨Player.red, PieceType.Regular⟩ : Piece).player = Player.red ∧ (7 : Int) = 7) ∨
               ((⟨Player.red, PieceType.Regular⟩ : Piece).player = Player.black ∧ (7 : Int) = 0))
            then PieceType.King
            else (⟨Player.red, PieceType.Regular⟩ : Piece).type } :=
  C6_promotion_on_back_rank witnessBoardPromo 6 1 7 2 ⟨Player.red, PieceType.Regular⟩
    rfl (by decide)

theorem C7_witness :
    Evaluator.evaluate witnessBoardRedOnly Player.red = Evaluator.WIN_SCORE ∧
    Evaluator.evaluate witnessBoardBlackOnly Player.red = -Evaluator.WIN_SCORE :=
  ⟨(C7_evaluate_terminal witnessBoardRedOnly Player.red).1 (by decide),
   (C7_evaluate_terminal witnessBoardBlackOnly Player.red).2 (by decide) (by decide)⟩

theorem C10_witness :
    capturedMidpoint witnessBoardCapture 0 1 Player.red capMove :=
  ((C10_captured_coordinates witnessBoardCapture 0 1 Player.red).1
    ⟨Player.red, PieceType.Regular⟩ rfl capMove (by decide)).1 rfl

theorem C3_witness :
    [capMove] ≠ [] ∧
    ∃ piece, witnessBoardCapture.getPieceAt 0 1 = some piece ∧
      ∃ fb fr fc ft,
        MoveValidator.replayChain witnessBoardCapture 0 1 piece.player piece.type
          [capMove] = some (fb, fr, fc, ft) ∧
        MoveValidator.getCaptureMoves fb fr fc piece.player ft = [] := by
  have h2 : MoveValidator.findCaptureChains
      (Move.execute witnessBoardCapture 0 1 capMove) 2 3 Player.red
      ((((Move.execute witnessBoardCapture 0 1 capMove).getPieceAt 2 3).map
          Piece.type).getD PieceType.Regular)
      [capMove] = [[capMove]] :=
    (MoveValidator.findCaptureChains.eq_def _ _ _ _ _ _).trans (by rfl)
  have h1 : MoveValidator.findCaptureChains witnessBoardCapture 0 1 Player.red
      PieceType.Regular []
      = MoveValidator.findCaptureChains
          (Move.execute witnessBoardCapture 0 1 capMove) 2 3 Player.red
          ((((Move.execute witnessBoardCapture 0 1 capMove).getPieceAt 2 3).map
              Piece.type).getD PieceType.Regular)
          [capMove] ++ [] :=
    (MoveValidator.findCaptureChains.eq_def _ _ _ _ _ _).trans (by rfl)
  have hchains : MoveValidator.getCaptureChains witnessBoardCapture 0 1
      = [[capMove]] := by
    show MoveValidator.findCaptureChains witnessBoardCapture 0 1 Player.red
      PieceType.Regular [] = [[capMove]]
    rw [h1, h2, List.append_nil]
  exact (C3_capture_chains_maximal witnessBoardCapture 0 1).1 [capMove]
    (by rw [hchains]; exact List.mem_singleton.mpr rfl)

/-! ### Faithful model of the raw recursion in `Minimax`

`Minimax.minimax`/`findBestMove` above use a natural-number depth, so
they model the source only for `depth ≥ 1`: the source decrements an
ordinary number, and a root call at `depth = 0` recurses with `-1`,
`-2`, … and can never reach the `depth === 0` leaf.  The definitions
below keep the source's `Int` depth and index the recursion by an
explicit stack budget `fuel` (one unit per `minimax` frame): `none`
means the computation does not complete within that budget, so
completing at no budget at all is exactly the source's divergence — in
practice a stack-overflow crash.  `findBestMoveJS_eq_findBestMove`
proves that for `depth ≥ 1` and sufficient fuel this model returns
exactly the total model's answer. -/

namespace Minimax

/-- The maximizing loop of the source's `minimax`, propagating a child
evaluation that does not complete. -/
def maxLoopJS (f : Board → Score → Score → Option Score) (board : Board) :
    List PieceMove → Score → Score → Score → Option Score
  | [], _, _, maxEval => some maxEval
  | pm :: rest, alpha, beta, maxEval =>
      match f (Move.execute board pm.fromRow pm.fromCol pm.move) alpha beta with
      | none => none
      | some evalScore =>
          if beta ≤ max alpha evalScore then some (max maxEval evalScore)
          else maxLoopJS f board rest (max alpha evalScore) beta
            (max maxEval evalScore)

/-- The minimizing loop of the source's `minimax`, propagating a child
evaluation that does not complete. -/
def minLoopJS (f : Board → Score → Score → Option Score) (board : Board) :
    List PieceMove → Score → Score → Score → Option Score
  | [], _, _, minEval => some minEval
  | pm :: rest, alpha, beta, minEval =>
      match f (Move.execute board pm.fromRow pm.fromCol pm.move) alpha beta with
      | none => none
      | some evalScore =>
          if min beta evalScore ≤ alpha then some (min minEval evalScore)
          else minLoopJS f board rest alpha (min beta evalScore)
            (min minEval evalScore)

/-- The candidate loop of the source's `findBestMove`, propagating a
child evaluation that does not complete. -/
def findLoopJS (f : Board → Score → Option Score) (board : Board) :
    List PieceMove → Option SearchResult → Score → Option (Option SearchResult)
  | [], best, _ => some best
  | pm :: rest, best, alpha =>
      match f (Move.execute board pm.fromRow pm.fromCol pm.move) alpha with
      | none => none
      | some score =>
          findLoopJS f board rest
            (match best with
             | none => some ⟨pm.fromRow, pm.fromCol, pm.move, score⟩
             | some b =>
                 if b.score < score then
                   some ⟨pm.fromRow, pm.fromCol, pm.move, score⟩
                 else some b)
            (max alpha score)

/-- `Minimax.minimax` with the source's `Int` depth and an explicit
stack budget: `none` when the recursion does not complete within `fuel`
frames.  Apart from the budget, a literal transcription of the
source. -/
def minimaxJS (fuel : Nat) (board : Board) (depth : Int) (alpha beta : Score)
    (isMaximizing : Bool) (player : Player) : Option Score :=
  match fuel with
  | 0 => none
  | fuel + 1 =>
      if depth = 0 then some (Score.ofInt (Evaluator.evaluate board player))
      else
        let currentPlayer := if isMaximizing then player else player.opponent
        let moves := MoveValidator.getAllValidMoves board currentPlayer
        if moves.length = 0 then
          some (Score.ofInt
            (if isMaximizing then -Evaluator.WIN_SCORE else Evaluator.WIN_SCORE))
        else if isMaximizing then
          maxLoopJS (fun b a bb => minimaxJS fuel b (depth - 1) a bb false player)
            board moves alpha beta ⊥
        else
          minLoopJS (fun b a bb => minimaxJS fuel b (depth - 1) a bb true player)
            board moves alpha beta ⊤

/-- `Minimax.findBestMove` with the source's `Int` depth and an explicit
stack budget for the `minimax` recursion: `some r` when the search
completes with result `r` (`r = none` is the source's `null`), `none`
when it does not complete within the budget. -/
def findBestMoveJS (fuel : Nat) (board : Board) (player : Player)
    (depth : Int) : Option (Option SearchResult) :=
  let moves := MoveValidator.getAllValidMoves board player
  if moves.length = 0 then some none
  else findLoopJS (fun b a => minimaxJS fuel b (depth - 1) a ⊤ false player)
    board moves none ⊥

/-- When every child evaluation completes, the budgeted maximizing loop
computes exactly the total model's loop. -/
lemma maxLoopJS_eq_maxLoop (f' : Board → Score → Score → Option Score)
    (f : Board → Score → Score → Score) (board : Board)
    (hf : ∀ b a bb, f' b a bb = some (f b a bb)) :
    ∀ (moves : List PieceMove) (alpha beta acc : Score),
      maxLoopJS f' board moves alpha beta acc
        = some (maxLoop f board moves alpha beta acc) := by
  intro moves
  induction moves with
  | nil => intro alpha beta acc; rfl
  | cons pm rest ih =>
      intro alpha beta acc
      have hL : maxLoopJS f' board (pm :: rest) alpha beta acc
          = if beta ≤ max alpha
              (f (Move.execute board pm.fromRow pm.fromCol pm.move) alpha beta)
            then some (max acc
              (f (Move.execute board pm.fromRow pm.fromCol pm.move) alpha beta))
            else maxLoopJS f' board rest
              (max alpha
                (f (Move.execute board pm.fromRow pm.fromCol pm.move) alpha beta))
              beta
              (max acc
                (f (Move.execute board pm.fromRow pm.fromCol pm.move) alpha beta)) := by
        show (match f' (Move.execute board pm.fromRow pm.fromCol pm.move) alpha beta with
          | none => none
          | some evalScore =>
              if beta ≤ max alpha evalScore then some (max acc evalScore)
              else maxLoopJS f' board rest (max alpha evalScore) beta
                (max acc evalScore))
          = _
        rw [hf]
      have hR : maxLoop f board (pm :: rest) alpha beta acc
          = if beta ≤ max alpha
              (f (Move.execute board pm.fromRow pm.fromCol pm.move) alpha beta)
            then max acc
              (f (Move.execute board pm.fromRow pm.fromCol pm.move) alpha beta)
            else maxLoop f board rest
              (max alpha
                (f (Move.execute board pm.fromRow pm.fromCol pm.move) alpha beta))
              beta
              (max acc
                (f (Move.execute board pm.fromRow pm.fromCol pm.move) alpha beta)) := rfl
      rw [hL, hR]
      by_cases hc : beta ≤ max alpha
        (f (Move.execute board pm.fromRow pm.fromCol pm.move) alpha beta)
      · rw [if_pos hc, if_pos hc]
      · rw [if_neg hc, if_neg hc]
        exact ih _ _ _

/-- When every child evaluation completes, the budgeted minimizing loop
computes exactly the total model's loop. -/
lemma minLoopJS_eq_minLoop (f' : Board → Score → Score → Option Score)
    (f : Board → Score → Score → Score) (board : Board)
    (hf : ∀ b a bb, f' b a bb = some (f b a bb)) :
    ∀ (moves : List PieceMove) (alpha beta acc : Score),
      minLoopJS f' board moves alpha beta acc
        = some (minLoop f board moves alpha beta acc) := by
  intro moves
  induction moves with
  | nil => intro alpha beta acc; rfl
  | cons pm rest ih =>
      intro alpha beta acc
      have hL : minLoopJS f' board (pm :: rest) alpha beta acc
          = if min beta
              (f (Move.execute board pm.fromRow pm.fromCol pm.move) alpha beta)
              ≤ alpha
            then some (min acc
              (f (Move.execute board pm.fromRow pm.fromCol pm.move) alpha beta))
            else minLoopJS f' board rest alpha
              (min beta
                (f (Move.execute board pm.fromRow pm.fromCol pm.move) alpha beta))
              (min acc
                (f (Move.execute board pm.fromRow pm.fromCol pm.move) alpha beta)) := by
        show (match f' (Move.execute board pm.fromRow pm.fromCol pm.move) alpha beta with
          | none => none
          | some evalScore =>
              if min beta evalScore ≤ alpha then some (min acc evalScore)
              else minLoopJS f' board rest alpha (min beta evalScore)
                (min acc evalScore))
          = _
        rw [hf]
      have hR : minLoop f board (pm :: rest) alpha beta acc
          = if min beta
              (f (Move.execute board pm.fromRow pm.fromCol pm.move) alpha beta)
              ≤ alpha
            then min acc
              (f (Move.execute board pm.fromRow pm.fromCol pm.move) alpha beta)
            else minLoop f board rest alpha
              (min beta
                (f (Move.execute board pm.fromRow pm.fromCol pm.move) alpha beta))
              (min acc
                (f (Move.execute board pm.fromRow pm.fromCol pm.move) alpha beta)) := rfl
      rw [hL, hR]
      by_cases hc : min beta
        (f (Move.execute board pm.fromRow pm.fromCol pm.move) alpha beta) ≤ alpha
      · rw [if_pos hc, if_pos hc]
      · rw [if_neg hc, if_neg hc]
        exact ih _ _ _

/-- When every child evaluation completes, the budgeted candidate loop
computes exactly the total model's loop. -/
lemma findLoopJS_eq_findLoop (f' : Board → Score → Option Score)
    (f : Board → Score → Score) (board : Board)
    (hf : ∀ b a, f' b a = some (f b a)) :
    ∀ (moves : List PieceMove) (best : Option SearchResult) (alpha : Score),
      findLoopJS f' board moves best alpha
        = some (findLoop f board moves best alpha) := by
  intro moves
  induction moves with
  | nil => intro best alpha; rfl
  | cons pm rest ih =>
      intro best alpha
      cases best with
      | none =>
          have hL : findLoopJS f' board (pm :: rest) none alpha
              = findLoopJS f' board rest
                  (some ⟨pm.fromRow, pm.fromCol, pm.move,
                    f (Move.execute board pm.fromRow pm.fromCol pm.move) alpha⟩)
                  (max alpha
                    (f (Move.execute board pm.fromRow pm.fromCol pm.move) alpha)) := by
            show (match f' (Move.execute board pm.fromRow pm.fromCol pm.move) alpha with
              | none => none
              | some score =>
                  findLoopJS f' board rest
                    (some ⟨pm.fromRow, pm.fromCol, pm.move, score⟩)
                    (max alpha score))
              = _
            rw [hf]
          have hR : findLoop f board (pm :: rest) none alpha
              = findLoop f board rest
                  (some ⟨pm.fromRow, pm.fromCol, pm.move,
                    f (Move.execute board pm.fromRow pm.fromCol pm.move) alpha⟩)
                  (max alpha
                    (f (Move.execute board pm.fromRow pm.fromCol pm.move) alpha)) := rfl
          rw [hL, hR]
          exact ih _ _
      | some b =>
          have hL : findLoopJS f' board (pm :: rest) (some b) alpha
              = findLoopJS f' board rest
                  (if b.score
                      < f (Move.execute board pm.fromRow pm.fromCol pm.move) alpha
                   then some ⟨pm.fromRow, pm.fromCol, pm.move,
                     f (Move.execute board pm.fromRow pm.fromCol pm.move) alpha⟩
                   else some b)
                  (max alpha
                    (f (Move.execute board pm.fromRow pm.fromCol pm.move) alpha)) := by
            show (match f' (Move.execute board pm.fromRow pm.fromCol pm.move) alpha with
              | none => none
              | some score =>
                  findLoopJS f' board rest
                    (if b.score < score then
                       some ⟨pm.fromRow, pm.fromCol, pm.move, score⟩
                     else some b)
                    (max alpha score))
              = _
            rw [hf]
          have hR : findLoop f board (pm :: rest) (some b) alpha
              = findLoop f board rest
                  (if b.score
                      < f (Move.execute board pm.fromRow pm.fromCol pm.move) alpha
                   then some ⟨pm.fromRow, pm.fromCol, pm.move,
                     f (Move.execute board pm.fromRow pm.fromCol pm.move) alpha⟩
                   else some b)
                  (max alpha
                    (f (Move.execute board pm.fromRow pm.fromCol pm.move) alpha)) := rfl
          rw [hL, hR]
          exact ih _ _

/-- On a natural depth below the stack budget the budgeted recursion
completes and agrees with the total model `minimax`. -/
lemma minimaxJS_eq_minimax :
    ∀ (fuel d : Nat) (board : Board) (alpha beta : Score) (isMax : Bool)
      (player : Player), d < fuel →
      minimaxJS fuel board (d : Int) alpha beta isMax player
        = some (minimax board d alpha beta isMax player) := by
  intro fuel
  induction fuel with
  | zero => intro d board alpha beta isMax player h; exact absurd h (Nat.not_lt_zero d)
  | succ fuel ih =>
      intro d board alpha beta isMax player hd
      cases d with
      | zero => rfl
      | succ k =>
          have hne : ¬ ((k + 1 : Nat) : Int) = 0 := by omega
          have hcast : ((k + 1 : Nat) : Int) - 1 = ((k : Nat) : Int) := by omega
          cases isMax with
          | true =>
              show (if ((k + 1 : Nat) : Int) = 0
                then some (Score.ofInt (Evaluator.evaluate board player))
                else if (MoveValidator.getAllValidMoves board player).length = 0 then
                  some (Score.ofInt (-Evaluator.WIN_SCORE))
                else maxLoopJS
                  (fun b a bb =>
                    minimaxJS fuel b (((k + 1 : Nat) : Int) - 1) a bb false player)
                  board (MoveValidator.getAllValidMoves board player) alpha beta ⊥)
                = some (minimax board (k + 1) alpha beta true player)
              rw [if_neg hne]
              have hR : minimax board (k + 1) alpha beta true player
                  = if (MoveValidator.getAllValidMoves board player).length = 0 then
                      Score.ofInt (-Evaluator.WIN_SCORE)
                    else maxLoop (fun b a bb => minimax b k a bb false player)
                      board (MoveValidator.getAllValidMoves board player)
                      alpha beta ⊥ := rfl
              rw [hR]
              by_cases hm : (MoveValidator.getAllValidMoves board player).length = 0
              · rw [if_pos hm, if_pos hm]
              · rw [if_neg hm, if_neg hm]
                simp only [hcast]
                exact maxLoopJS_eq_maxLoop _ _ board
                  (fun b a bb => ih k b a bb false player (Nat.lt_of_succ_lt_succ hd))
                  (MoveValidator.getAllValidMoves board player) alpha beta ⊥
          | false =>
              show (if ((k + 1 : Nat) : Int) = 0
                then some (Score.ofInt (Evaluator.evaluate board player))
                else if (MoveValidator.getAllValidMoves board
                    player.opponent).length = 0 then
                  some (Score.ofInt Evaluator.WIN_SCORE)
                else minLoopJS
                  (fun b a bb =>
                    minimaxJS fuel b (((k + 1 : Nat) : Int) - 1) a bb true player)
                  board (MoveValidator.getAllValidMoves board player.opponent)
                  alpha beta ⊤)
                = some (minimax board (k + 1) alpha beta false player)
              rw [if_neg hne]
              have hR : minimax board (k + 1) alpha beta false player
                  = if (MoveValidator.getAllValidMoves board
                        player.opponent).length = 0 then
                      Score.ofInt Evaluator.WIN_SCORE
                    else minLoop (fun b a bb => minimax b k a bb true player)
                      board (MoveValidator.getAllValidMoves board player.opponent)
                      alpha beta ⊤ := rfl
              rw [hR]
              by_cases hm : (MoveValidator.getAllValidMoves board
                  player.opponent).length = 0
              · rw [if_pos hm, if_pos hm]
              · rw [if_neg hm, if_neg hm]
                simp only [hcast]
                exact minLoopJS_eq_minLoop _ _ board
                  (fun b a bb => ih k b a bb true player (Nat.lt_of_succ_lt_succ hd))
                  (MoveValidator.getAllValidMoves board player.opponent)
                  alpha beta ⊤

/-- For `depth ≥ 1` and sufficient stack budget the budgeted search
completes and returns exactly the total model's `findBestMove`; the
total model above is therefore a faithful rendering of the source on
every depth its claims quantify over. -/
lemma findBestMoveJS_eq_findBestMove (board : Board) (player : Player)
    (depth fuel : Nat) (h1 : 1 ≤ depth) (hfuel : depth - 1 < fuel) :
    findBestMoveJS fuel board player (depth : Int)
      = some (findBestMove board player depth) := by
  have hcast : ((depth : Nat) : Int) - 1 = ((depth - 1 : Nat) : Int) := by omega
  show (if (MoveValidator.getAllValidMoves board player).length = 0 then some none
    else findLoopJS
      (fun b a => minimaxJS fuel b (((depth : Nat) : Int) - 1) a ⊤ false player)
      board (MoveValidator.getAllValidMoves board player) none ⊥)
    = some (findBestMove board player depth)
  have hR : findBestMove board player depth
      = if (MoveValidator.getAllValidMoves board player).length = 0 then none
        else findLoop (fun b a => minimax b (depth - 1) a ⊤ false player)
          board (MoveValidator.getAllValidMoves board player) none ⊥ := rfl
  rw [hR]
  by_cases hm : (MoveValidator.getAllValidMoves board player).length = 0
  · rw [if_pos hm, if_pos hm]
  · rw [if_neg hm, if_neg hm]
    simp only [hcast]
    exact findLoopJS_eq_findLoop _ _ board
      (fun b a => minimaxJS_eq_minimax fuel (depth - 1) b a ⊤ false player hfuel)
      (MoveValidator.getAllValidMoves board player) none ⊥

end Minimax

